import Mathlib

/-!
Verification development for the table lineage tracer
(`TableDependencyTracer.py`).

The embedding models the core resolver: writer lookup with a textual
word-boundary re-check (`filter_candidate_files_by_name`,
`find_writers_for_table`), the recursive lineage enumerator
(`dfs_lineage_paths`), the row shaper (`shape_paths_to_rows`), the CSV
table builder (`write_csv`) and the driver (`tracer`).

Modelling conventions:
* The file system is a value: a `CodeFile` carries a path and the text
  `read_text` would return (`none` models an unreadable file).
* The dialect extractors (header parsing, view-name parsing,
  `spark.table` and FROM/JOIN scraping) are external collaborators of
  the core; they are abstracted as function parameters shared by the
  index builder, the fallback re-parse and the upstream resolver, so
  that statements hold for every extractor and the "same rules" sharing
  is literal.
* Python `str.lower` is modelled on ASCII letters (`lowerAscii`), which
  covers every identifier the tracer manipulates.
* The enumerator is given as a fuel-indexed structural recursion
  (`dfs_lineage_paths_fuel`) plus a wrapper `dfs_lineage_paths` that
  supplies provably sufficient fuel; this keeps the function computable
  by kernel reduction while the recursion of the source is recovered
  exactly by the proved unfolding lemmas.
-/

/-! ### ASCII lower-casing (Python `str.lower` on identifiers) -/

/-- Lower-case one ASCII character, as Python `str.lower` does on the
letters the tracer handles. -/
def lowerChar (c : Char) : Char :=
  if h : 65 ≤ c.toNat ∧ c.toNat ≤ 90 then
    Char.ofNatAux (c.toNat + 32) (Or.inl (by omega))
  else c

/-- Lower-case a string character-wise. -/
def lowerAscii (s : String) : String := String.mk (s.data.map lowerChar)

theorem toNat_lowerChar_of_upper {c : Char} (h : 65 ≤ c.toNat ∧ c.toNat ≤ 90) :
    (lowerChar c).toNat = c.toNat + 32 := by
  simp only [lowerChar, dif_pos h]
  rfl

theorem lowerChar_of_not_upper {d : Char} (h : ¬ (65 ≤ d.toNat ∧ d.toNat ≤ 90)) :
    lowerChar d = d := dif_neg h

theorem lowerChar_idem (c : Char) : lowerChar (lowerChar c) = lowerChar c := by
  by_cases h : 65 ≤ c.toNat ∧ c.toNat ≤ 90
  · have h2 : (lowerChar c).toNat = c.toNat + 32 := toNat_lowerChar_of_upper h
    exact lowerChar_of_not_upper (by omega)
  · rw [lowerChar_of_not_upper h]
    exact lowerChar_of_not_upper h

theorem lowerAscii_idem (s : String) : lowerAscii (lowerAscii s) = lowerAscii s := by
  simp only [lowerAscii, List.map_map]
  congr 1
  exact List.map_congr_left (fun c _ => lowerChar_idem c)

/-! ### Word-boundary search (`word_boundary_pattern_fqtn` and `pat.search`) -/

/-- Python regex word characters, restricted to ASCII (the tracer only
builds patterns from `[a-z0-9_.]` identifiers). -/
def isWordChar (c : Char) : Bool := c.isAlphanum || c == '_'

/-- Whether a `\b` word boundary lies between two adjacent positions;
`none` stands for the start or the end of the text. -/
def boundaryBetween (a b : Option Char) : Bool :=
  (a.elim false isWordChar) != (b.elim false isWordChar)

/-- The pattern `\b pat \b` matches the text exactly at the current
position, whose preceding character is `prev`. -/
def wbMatchAt (pat : List Char) (prev : Option Char) (text : List Char) : Bool :=
  boundaryBetween prev pat.head? && pat.isPrefixOf text &&
    boundaryBetween pat.getLast? (text.get? pat.length)

/-- Scan the text left to right for a `\b pat \b` match. -/
def wbSearchAux (pat : List Char) : Option Char → List Char → Bool
  | prev, [] => wbMatchAt pat prev []
  | prev, c :: cs => wbMatchAt pat prev (c :: cs) || wbSearchAux pat (some c) cs

/-- Search for the escaped FQTN with word boundaries on both sides, the
embedding of compiling `word_boundary_pattern_fqtn fqtn` and running
`.search` on a text. -/
def wb_search_fqtn (fqtn : String) (text : String) : Bool :=
  wbSearchAux fqtn.data none text.data

/-! ### Data model -/

/-- Represents a script/view that writes a specific output table
(dataclass `WriterInfo`). -/
structure WriterInfo where
  file_path : String
  kind : String
deriving DecidableEq, Repr

/-- One corpus file: the path together with the text `read_text` yields
for it (`none` models an unreadable file). -/
structure CodeFile where
  path : String
  text : Option String
deriving DecidableEq, Repr

/-- The writers index: canonical FQTN to the writers registered for it,
in insertion order (Python `defaultdict(list)`). -/
abbrev WritersIndex := List (String × List WriterInfo)

/-- The per-run upstream-union memoization (`cache_upstreams`). -/
abbrev UpstreamCache := List (String × List String)

/-- Reading a file of the corpus by path (the embedding of `read_text`,
whose I/O is resolved against the corpus value). -/
def read_text (all_files : List CodeFile) (p : String) : Option String :=
  (all_files.find? (fun f => f.path == p)).bind (fun f => f.text)

/-! ### Candidate filtering and writer resolution -/

/-- Embeds `filter_candidate_files_by_name`: keep the paths of readable
files whose lower-cased text contains the FQTN with word boundaries. -/
def filter_candidate_files_by_name (files : List CodeFile) (fqtn : String) : List String :=
  files.filterMap (fun f =>
    match f.text with
    | none => none
    | some text => if wb_search_fqtn fqtn (lowerAscii text) then some f.path else none)

section Extractors

/- The dialect extractors are external collaborators of the core (spec
paragraph 6); the development is parameterized over them and every
consumer below receives the same functions, mirroring that index build,
fallback re-parse and upstream resolution share one set of rules. -/
variable (parse_output_tables_from_header : String → List String)
variable (parse_insertinto_targets : String → List String)
variable (parse_view_name : String → Option String)
variable (extract_upstreams_from_spark : String → List String)
variable (extract_upstreams_from_view : String → List String)

/-- The fallback branch of `find_writers_for_table`: re-parse each
candidate file directly with the same per-kind extraction rules. -/
def direct_parse_writers (fqtn : String) (all_files : List CodeFile)
    (candidates : List String) : List WriterInfo :=
  candidates.filterMap (fun p =>
    match read_text all_files p with
    | none => none
    | some text =>
      if fqtn ∈ parse_output_tables_from_header text ++ parse_insertinto_targets text then
        some ⟨p, "spark"⟩
      else
        match parse_view_name text with
        | some v => if v = fqtn then some ⟨p, "view"⟩ else none
        | none => none)

end Extractors

/-- Deduplication by the key `(file_path, kind)` keeping first
occurrences, the embedding of the dict comprehension closing
`find_writers_for_table`. -/
def dedup_writers_go (seen : List (String × String)) : List WriterInfo → List WriterInfo
  | [] => []
  | w :: rest =>
    if (w.file_path, w.kind) ∈ seen then dedup_writers_go seen rest
    else w :: dedup_writers_go ((w.file_path, w.kind) :: seen) rest

def dedup_writers (ws : List WriterInfo) : List WriterInfo := dedup_writers_go [] ws

section Extractors

variable (parse_output_tables_from_header : String → List String)
variable (parse_insertinto_targets : String → List String)
variable (parse_view_name : String → Option String)
variable (extract_upstreams_from_spark : String → List String)
variable (extract_upstreams_from_view : String → List String)

/-- Embeds `find_writers_for_table`: filter the indexed writers down to
textually matching candidate files, fall back to a direct re-parse of
the candidates when that leaves nothing, and deduplicate. -/
def find_writers_for_table (fqtn : String) (all_files : List CodeFile)
    (global_index : WritersIndex) : List WriterInfo :=
  let fqtn := lowerAscii fqtn
  let candidates := filter_candidate_files_by_name all_files fqtn
  let writers :=
    match global_index.lookup fqtn with
    | some ws => ws.filter (fun w => candidates.contains w.file_path)
    | none => []
  let writers :=
    if writers = [] then
      direct_parse_writers parse_output_tables_from_header parse_insertinto_targets
        parse_view_name fqtn all_files candidates
    else writers
  dedup_writers writers

/-- Embeds `get_upstreams_for_writer`: read the writer file and dispatch
on the writer kind. -/
def get_upstreams_for_writer (all_files : List CodeFile) (writer : WriterInfo) : List String :=
  match read_text all_files writer.file_path with
  | none => []
  | some text =>
    if writer.kind = "spark" then extract_upstreams_from_spark text
    else if writer.kind = "view" then extract_upstreams_from_view text
    else []

end Extractors

/-! ### Deterministic set ordering (`sorted(....)` on a Python set) -/

/-- Lexicographic comparison of character lists by code point, the order
Python uses on `str`. -/
def lexLe : List Char → List Char → Bool
  | [], _ => true
  | _ :: _, [] => false
  | a :: as, b :: bs =>
    if a.toNat < b.toNat then true
    else if b.toNat < a.toNat then false
    else lexLe as bs

/-- Python string comparison `a <= b`. -/
def strLe (a b : String) : Bool := lexLe a.data b.data

/-- Ordered insertion into an already sorted list. -/
def insertLe (a : String) : List String → List String
  | [] => [a]
  | b :: bs => if strLe a b then a :: b :: bs else b :: insertLe a bs

/-- Insertion sort by `strLe`; agrees with Python `sorted` on
duplicate-free input. -/
def insertionSort : List String → List String
  | [] => []
  | a :: as => insertLe a (insertionSort as)

/-- Sorted deduplication: the value of `sorted(s)` for a Python set `s`
represented by any enumeration list. -/
def sortedSet (l : List String) : List String := insertionSort l.dedup

section Enumerator

variable (parse_output_tables_from_header : String → List String)
variable (parse_insertinto_targets : String → List String)
variable (parse_view_name : String → Option String)
variable (extract_upstreams_from_spark : String → List String)
variable (extract_upstreams_from_view : String → List String)

/-- The union (as a multiset enumeration) of the upstream sets of all
writers resolved for a table: the value cached per FQTN by
`dfs_lineage_paths`. -/
def upstream_union_of (fqtn : String) (all_files : List CodeFile)
    (writers_index : WritersIndex) : List String :=
  (find_writers_for_table parse_output_tables_from_header parse_insertinto_targets
      parse_view_name fqtn all_files writers_index).flatMap
    (get_upstreams_for_writer extract_upstreams_from_spark extract_upstreams_from_view all_files)

/-- Every canonical name the writer resolution can ever report a writer
for: the index keys together with everything any extractor reports on
any corpus file.  Recursion of the enumerator only descends through
members of this finite list. -/
def universe_tables (all_files : List CodeFile) (writers_index : WritersIndex) : List String :=
  writers_index.map Prod.fst ++
    all_files.flatMap (fun f =>
      match f.text with
      | none => []
      | some t =>
        parse_output_tables_from_header t ++ parse_insertinto_targets t ++
          (parse_view_name t).toList)

/-- One step of the branching loop `for up_fqtn in sorted(upstream_union)`:
run the recursive enumeration (`callee`) for each upstream in order,
thread the cache through, prepend the current table to every sub-path
and concatenate in order. -/
def dfs_branch_run (callee : String → UpstreamCache → Option (List (List String) × UpstreamCache))
    (start : String) : List String → UpstreamCache →
    Option (List (List String) × UpstreamCache)
  | [], cache => some ([], cache)
  | up :: rest, cache =>
    match callee up cache with
    | none => none
    | some (sub, cache1) =>
      match dfs_branch_run callee start rest cache1 with
      | none => none
      | some (more, cache2) => some (sub.map (fun sp => start :: sp) ++ more, cache2)

/-- The body of `dfs_lineage_paths` for one call, with the recursive
occurrence abstracted as `recur`: cycle guard, writer resolution,
cached upstream union, terminal rule, then the ordered branch loop. -/
def dfs_step (recur : String → List String → UpstreamCache →
      Option (List (List String) × UpstreamCache))
    (start_fqtn : String) (all_files : List CodeFile) (writers_index : WritersIndex)
    (visited_stack : List String) (cache_upstreams : UpstreamCache) :
    Option (List (List String) × UpstreamCache) :=
  let start := lowerAscii start_fqtn
  if start ∈ visited_stack then
    some ([[start]], cache_upstreams)
  else
    let writers := find_writers_for_table parse_output_tables_from_header
      parse_insertinto_targets parse_view_name start all_files writers_index
    let uc :=
      match cache_upstreams.lookup start with
      | some u => (u, cache_upstreams)
      | none =>
        let u := writers.flatMap (get_upstreams_for_writer extract_upstreams_from_spark
          extract_upstreams_from_view all_files)
        (u, (start, u) :: cache_upstreams)
    if writers = [] ∨ uc.1 = [] then
      some ([[start]], uc.2)
    else
      dfs_branch_run (fun up cache => recur up (visited_stack ++ [start]) cache)
        start (sortedSet uc.1) uc.2

/-- Fuel-indexed embedding of `dfs_lineage_paths`.  The body at `fuel + 1`
is the body of the source function (`dfs_step`) with recursive calls at
`fuel`; `none` means the fuel ran out (which the wrapper below proves
never happens for the fuel it supplies). -/
def dfs_lineage_paths_fuel : Nat → String → List CodeFile → WritersIndex →
    List String → UpstreamCache → Option (List (List String) × UpstreamCache)
  | 0 => fun _ _ _ _ _ => none
  | fuel + 1 => fun start_fqtn all_files writers_index visited_stack cache_upstreams =>
    dfs_step parse_output_tables_from_header parse_insertinto_targets parse_view_name
      extract_upstreams_from_spark extract_upstreams_from_view
      (fun up vis cache => dfs_lineage_paths_fuel fuel up all_files writers_index vis cache)
      start_fqtn all_files writers_index visited_stack cache_upstreams

/-- The fuel the wrapper supplies: one more than the number of
not-yet-visited universe entries, which the adequacy lemma below proves
sufficient. -/
def dfs_fuel_bound (all_files : List CodeFile) (writers_index : WritersIndex)
    (visited_stack : List String) : Nat :=
  ((universe_tables parse_output_tables_from_header parse_insertinto_targets parse_view_name
      all_files writers_index).countP (fun x => !(visited_stack.contains x))) + 1

/-- Embedding of `dfs_lineage_paths`: depth-first enumeration of all
lineage paths of a table, with cycle cutting over `visited_stack` and
per-table memoization of the upstream union in `cache_upstreams`.
Returns the path list together with the final cache. -/
def dfs_lineage_paths (start_fqtn : String) (all_files : List CodeFile)
    (writers_index : WritersIndex) (visited_stack : List String)
    (cache_upstreams : UpstreamCache) : List (List String) × UpstreamCache :=
  (dfs_lineage_paths_fuel parse_output_tables_from_header parse_insertinto_targets
      parse_view_name extract_upstreams_from_spark extract_upstreams_from_view
      (dfs_fuel_bound parse_output_tables_from_header parse_insertinto_targets parse_view_name
        all_files writers_index visited_stack)
      start_fqtn all_files writers_index visited_stack cache_upstreams).getD
    ([], cache_upstreams)

end Enumerator

/-- Python `str.strip()` with no argument: drop whitespace from both
ends. -/
def pyStrip (s : String) : String :=
  String.mk (((s.data.dropWhile Char.isWhitespace).reverse.dropWhile Char.isWhitespace).reverse)

/-- Python `'.' in s` (membership of a character in a string). -/
def strContainsChar (s : String) (c : Char) : Bool := s.data.contains c

/-- Python `str.split()` with no argument: words separated by runs of
whitespace, no empty tokens.  The first argument accumulates the current
word reversed. -/
def wordsWSAux : List Char → List Char → List (List Char)
  | cur, [] => if cur = [] then [] else [cur.reverse]
  | cur, c :: cs =>
    if c.isWhitespace then
      if cur = [] then wordsWSAux [] cs else cur.reverse :: wordsWSAux [] cs
    else wordsWSAux (c :: cur) cs

def pySplitWS (s : String) : List String := (wordsWSAux [] s.data).map String.mk

/-- Parse a plain decimal token, the effect of Python `int(tok)` on the
tokens the tracer generates ( `int` also accepts signs, which for the
`Layer n` keys at hand never occur; a malformed token is `none`, which
the caller skips just as the source catches the exception). -/
def parseDecimal? (s : String) : Option Nat :=
  if s.data ≠ [] ∧ s.data.all (fun c => c.isDigit) then
    some (s.data.foldl (fun n c => n * 10 + (c.toNat - 48)) 0)
  else none

/-! ### Row shaping (`shape_paths_to_rows`) -/

/-- A shaped output row: field name to value, in insertion order (a
Python dict). -/
abbrev Row := List (String × String)

/-- Embeds `shape_paths_to_rows`: a one-element path becomes a
target/source row; a longer path contributes `Layer i` fields for its
interior and its last element as source.  (On the empty path the source
would raise `IndexError`; the enumerator never produces one, and the
embedding returns an empty row there.) -/
def shape_paths_to_rows (target : String) (paths : List (List String)) : List Row :=
  paths.map (fun p =>
    match p with
    | [x] => [("Target Table", target), ("Source Table", x)]
    | _ =>
      let inter := (p.drop 1).dropLast
      let leaf := p.getLastD ""
      ("Target Table", target) ::
        ((inter.enumFrom 1).map (fun iv => ("Layer " ++ toString iv.1, iv.2)) ++
          [("Source Table", leaf)]))

/-! ### CSV table building (`write_csv`) -/

/-- The layer number of a row key, the embedding of
`k.startswith("Layer ")` followed by `int(k.split()[1])`. -/
def layer_num_of_key (k : String) : Option Nat :=
  if "Layer ".data.isPrefixOf k.data then
    match (pySplitWS k).get? 1 with
    | some tok => parseDecimal? tok
    | none => none
  else none

/-- Embeds `write_csv` up to serialization: the emitted table as a list
of cell rows, headed by the column list `Target Table, Layer 1 ... Layer
max, Source Table`; missing fields print as empty cells (`DictWriter`
with `restval` default and `extrasaction=ignore`). -/
def write_csv (rows : List Row) : List (List String) :=
  let max_layer := rows.foldl (fun m r =>
    r.foldl (fun m kv =>
      match layer_num_of_key kv.1 with
      | some n => max m n
      | none => m) m) 0
  let cols := "Target Table" ::
    ((List.range' 1 max_layer).map (fun i => "Layer " ++ toString i) ++ ["Source Table"])
  cols :: rows.map (fun r => cols.map (fun c => (r.lookup c).getD ""))

/-! ### Writer indexing (`index_writers`) and the driver (`tracer`) -/

/-- Python `os.path.splitext(p)[1].lower()`: the lower-cased extension of
the basename, leading dots of the basename never counting as a
separator. -/
def pathExt (p : String) : String :=
  let base := (p.data.reverse.takeWhile (fun c => c != '/')).reverse
  let lead := base.takeWhile (fun c => c == '.')
  let rest := base.drop lead.length
  if rest.contains '.' then
    String.mk (('.' :: (rest.reverse.takeWhile (fun c => c != '.')).reverse).map lowerChar)
  else ""

/-- Append a writer under a key, creating the key at the end on first
use (Python `defaultdict(list)` append, preserving insertion order). -/
def index_insert (index : WritersIndex) (key : String) (w : WriterInfo) : WritersIndex :=
  match index with
  | [] => [(key, [w])]
  | (k, ws) :: rest =>
    if k = key then (k, ws ++ [w]) :: rest else (k, ws) :: index_insert rest key w

section Driver

variable (parse_output_tables_from_header : String → List String)
variable (parse_insertinto_targets : String → List String)
variable (parse_view_name : String → Option String)
variable (extract_upstreams_from_spark : String → List String)
variable (extract_upstreams_from_view : String → List String)

/-- Embeds `index_writers`: register every qualified output table of
every readable file, and the view target of every `.sql` file.  (The
source iterates the output set of a file in Python set order; the
embedding iterates it in sorted order — every consumer of the index is
insensitive to that order, per-key writer lists still follow file
order.) -/
def index_writers (files : List CodeFile) : WritersIndex :=
  files.foldl (fun index f =>
    match f.text with
    | none => index
    | some text =>
      let outs := sortedSet (parse_output_tables_from_header text ++
        parse_insertinto_targets text)
      let index := outs.foldl (fun idx fq =>
        if strContainsChar fq '.' then index_insert idx fq ⟨f.path, "spark"⟩ else idx) index
      if pathExt f.path = ".sql" then
        match parse_view_name text with
        | some v => if strContainsChar v '.' then index_insert index v ⟨f.path, "view"⟩
                    else index
        | none => index
      else index) []

/-- Embeds the helper `_normalize_fqtn_or_none` of `tracer`. -/
def normalize_fqtn_or_none (t : String) : Option String :=
  let t1 := pyStrip t
  let t_low := lowerAscii t1
  if strContainsChar t_low '.' then some t_low else none

/-- Embeds the helper `_expand_bare_table` of `tracer`: all index keys
ending in `.bare`, as a sorted set. -/
def expand_bare_table (writers_index : WritersIndex) (tbl_bare : String) : List String :=
  let bare := lowerAscii (pyStrip tbl_bare)
  let suffixed := "." ++ bare
  let cands := (writers_index.map Prod.fst).filter (fun k => suffixed.data.isSuffixOf k.data)
  sortedSet cands

/-- The resolved target list of a run: strip and drop empty entries,
keep qualified names lower-cased, expand bare names against the index,
then `sorted(set(...))`. -/
def resolved_fqtn_targets (files : List CodeFile) (targets_arg : List String) : List String :=
  let writers_index := index_writers parse_output_tables_from_header
    parse_insertinto_targets parse_view_name files
  let raw_targets := (targets_arg.map pyStrip).filter (fun x => x != "")
  sortedSet (raw_targets.flatMap (fun t =>
    match normalize_fqtn_or_none t with
    | some fq => [fq]
    | none => expand_bare_table writers_index t))

/-- Embeds the driver `tracer` from index build to CSV table: `error 2`
models `sys.exit(2)` on an empty resolved target list, `ok` carries the
emitted table.  File-system walking and argument splitting stay
external; `files` is the value of `list_code_files(root)` (empty for an
empty or nonexistent root) and `targets_arg` the comma-split target
option. -/
def tracer (files : List CodeFile) (targets_arg : List String) :
    Except Nat (List (List String)) :=
  let writers_index := index_writers parse_output_tables_from_header
    parse_insertinto_targets parse_view_name files
  let fqtn_targets := resolved_fqtn_targets parse_output_tables_from_header
    parse_insertinto_targets parse_view_name files targets_arg
  if fqtn_targets = [] then Except.error 2
  else
    let all_rows := fqtn_targets.flatMap (fun tgt =>
      shape_paths_to_rows tgt
        (dfs_lineage_paths parse_output_tables_from_header parse_insertinto_targets
            parse_view_name extract_upstreams_from_spark extract_upstreams_from_view
            tgt files writers_index [] []).1)
    Except.ok (write_csv all_rows)

end Driver

/-! ### Order lemmas for `sortedSet` -/

theorem char_toNat_inj {a b : Char} (h : a.toNat = b.toNat) : a = b :=
  Char.ext (UInt32.ext h)

theorem lexLe_total : ∀ as bs : List Char, lexLe as bs = true ∨ lexLe bs as = true := by
  intro as
  induction as with
  | nil => intro bs; left; rfl
  | cons a as ih =>
    intro bs
    cases bs with
    | nil => right; rfl
    | cons b bs =>
      by_cases h1 : a.toNat < b.toNat
      · left; simp [lexLe, h1]
      · by_cases h2 : b.toNat < a.toNat
        · right; simp [lexLe, h2]
        · rcases ih bs with h | h
          · left; simp [lexLe, h1, h2, h]
          · right; simp [lexLe, h1, h2, h]

theorem lexLe_antisymm : ∀ {as bs : List Char},
    lexLe as bs = true → lexLe bs as = true → as = bs := by
  intro as
  induction as with
  | nil =>
    intro bs h1 h2
    cases bs with
    | nil => rfl
    | cons b bs => simp [lexLe] at h2
  | cons a as ih =>
    intro bs h1 h2
    cases bs with
    | nil => simp [lexLe] at h1
    | cons b bs =>
      by_cases g1 : a.toNat < b.toNat
      · simp [lexLe, g1, Nat.lt_asymm g1, Nat.ne_of_lt g1] at h2
      · by_cases g2 : b.toNat < a.toNat
        · simp [lexLe, g1, g2] at h1
        · have hab : a = b := char_toNat_inj (by omega)
          subst hab
          simp only [lexLe, g1, if_neg, if_false] at h1 h2
          rw [ih h1 h2]

theorem lexLe_trans : ∀ {as bs cs : List Char},
    lexLe as bs = true → lexLe bs cs = true → lexLe as cs = true := by
  intro as
  induction as with
  | nil => intro bs cs _ _; rfl
  | cons a as ih =>
    intro bs cs h1 h2
    cases bs with
    | nil => simp [lexLe] at h1
    | cons b bs =>
      cases cs with
      | nil => simp [lexLe] at h2
      | cons c cs =>
        simp only [lexLe] at h1 h2 ⊢
        by_cases g1 : a.toNat < b.toNat
        · by_cases g2 : b.toNat < c.toNat
          · simp [show a.toNat < c.toNat by omega]
          · by_cases g3 : c.toNat < b.toNat
            · simp [g2, g3] at h2
            · simp [show a.toNat < c.toNat by omega]
        · by_cases g4 : b.toNat < a.toNat
          · simp [g1, g4] at h1
          · by_cases g2 : b.toNat < c.toNat
            · simp [show a.toNat < c.toNat by omega]
            · by_cases g3 : c.toNat < b.toNat
              · simp [g2, g3] at h2
              · have hac1 : ¬ a.toNat < c.toNat := by omega
                have hac2 : ¬ c.toNat < a.toNat := by omega
                simp only [g1, if_false, g4, if_false] at h1
                simp only [g2, if_false, g3, if_false] at h2
                simp [hac1, hac2, ih h1 h2]

theorem strLe_total (a b : String) : strLe a b = true ∨ strLe b a = true :=
  lexLe_total a.data b.data

theorem strLe_antisymm {a b : String} (h1 : strLe a b = true) (h2 : strLe b a = true) :
    a = b := by
  cases a; cases b
  exact congrArg String.mk (lexLe_antisymm h1 h2)

theorem strLe_trans {a b c : String} (h1 : strLe a b = true) (h2 : strLe b c = true) :
    strLe a c = true := lexLe_trans h1 h2

instance : IsAntisymm String (fun a b => strLe a b = true) :=
  ⟨fun _ _ => strLe_antisymm⟩

theorem perm_insertLe (a : String) (l : List String) :
    List.Perm (insertLe a l) (a :: l) := by
  induction l with
  | nil => exact List.Perm.refl _
  | cons b bs ih =>
    by_cases h : strLe a b = true
    · simp [insertLe, h]
    · simp only [insertLe, h, if_false]
      exact (ih.cons b).trans (List.Perm.swap a b bs)

theorem perm_insertionSort (l : List String) : List.Perm (insertionSort l) l := by
  induction l with
  | nil => exact List.Perm.refl _
  | cons a as ih => exact (perm_insertLe a (insertionSort as)).trans (ih.cons a)

theorem mem_insertLe {x a : String} {l : List String} :
    x ∈ insertLe a l ↔ x = a ∨ x ∈ l := by
  rw [(perm_insertLe a l).mem_iff]
  simp

theorem sorted_insertLe {a : String} {l : List String}
    (h : l.Pairwise (fun x y => strLe x y = true)) :
    (insertLe a l).Pairwise (fun x y => strLe x y = true) := by
  induction l with
  | nil => simp [insertLe]
  | cons b bs ih =>
    rcases List.pairwise_cons.mp h with ⟨hb, hbs⟩
    by_cases hab : strLe a b = true
    · simp only [insertLe, hab, if_true]
      refine List.pairwise_cons.mpr ⟨?_, h⟩
      intro y hy
      rcases List.mem_cons.mp hy with rfl | hy
      · exact hab
      · exact strLe_trans hab (hb y hy)
    · have hba : strLe b a = true := (strLe_total a b).resolve_left hab
      simp only [insertLe, hab, if_false]
      refine List.pairwise_cons.mpr ⟨?_, ih hbs⟩
      intro y hy
      rcases mem_insertLe.mp hy with rfl | hy
      · exact hba
      · exact hb y hy

theorem sorted_insertionSort (l : List String) :
    (insertionSort l).Pairwise (fun x y => strLe x y = true) := by
  induction l with
  | nil => simp [insertionSort]
  | cons a as ih => exact sorted_insertLe ih

theorem sorted_sortedSet (l : List String) :
    (sortedSet l).Pairwise (fun x y => strLe x y = true) :=
  sorted_insertionSort l.dedup

theorem perm_sortedSet_dedup (l : List String) : List.Perm (sortedSet l) l.dedup :=
  perm_insertionSort l.dedup

theorem mem_sortedSet {a : String} {l : List String} : a ∈ sortedSet l ↔ a ∈ l :=
  (perm_sortedSet_dedup l).mem_iff.trans List.mem_dedup

theorem sortedSet_eq_of_perm {l₁ l₂ : List String} (h : List.Perm l₁ l₂) :
    sortedSet l₁ = sortedSet l₂ :=
  List.eq_of_perm_of_sorted
    ((perm_sortedSet_dedup l₁).trans (h.dedup.trans (perm_sortedSet_dedup l₂).symm))
    (sorted_sortedSet l₁) (sorted_sortedSet l₂)

theorem sortedSet_ne_nil {l : List String} (h : l ≠ []) : sortedSet l ≠ [] := by
  rcases List.exists_mem_of_ne_nil l h with ⟨a, ha⟩
  exact List.ne_nil_of_mem (mem_sortedSet.mpr ha)

/-! ### Writer resolution lemmas -/

theorem writerinfo_eq_of_key {w v : WriterInfo}
    (h : (w.file_path, w.kind) = (v.file_path, v.kind)) : w = v := by
  cases w; cases v
  simpa using h

theorem mem_dedup_writers_go {w : WriterInfo} :
    ∀ {ws : List WriterInfo} {seen : List (String × String)}, w ∈ ws →
      (w.file_path, w.kind) ∉ seen → w ∈ dedup_writers_go seen ws := by
  intro ws
  induction ws with
  | nil => intro seen h; simp at h
  | cons v rest ih =>
    intro seen hmem hseen
    rcases List.mem_cons.mp hmem with rfl | hrest
    · simp only [dedup_writers_go, if_neg hseen]
      exact List.mem_cons_self _ _
    · by_cases hv : (v.file_path, v.kind) ∈ seen
      · simp only [dedup_writers_go, if_pos hv]
        exact ih hrest hseen
      · simp only [dedup_writers_go, if_neg hv]
        by_cases hwv : w = v
        · exact hwv ▸ List.mem_cons_self _ _
        · refine List.mem_cons_of_mem _ (ih hrest ?_)
          intro hc
          rcases List.mem_cons.mp hc with hk | hk
          · exact hwv (writerinfo_eq_of_key hk)
          · exact hseen hk

theorem mem_dedup_writers {w : WriterInfo} {ws : List WriterInfo} (h : w ∈ ws) :
    w ∈ dedup_writers ws :=
  mem_dedup_writers_go h (by simp)

theorem lookup_some_mem_keys {β : Type} {l : List (String × β)} {k : String} {v : β}
    (h : l.lookup k = some v) : k ∈ l.map Prod.fst := by
  induction l with
  | nil => simp [List.lookup] at h
  | cons kv rest ih =>
    rcases kv with ⟨k1, v1⟩
    by_cases hk : k == k1
    · have : k = k1 := eq_of_beq hk
      rw [this]
      exact List.mem_map_of_mem Prod.fst (List.mem_cons_self _ _)
    · have hkf : (k == k1) = false := by simpa using hk
      rw [List.lookup, hkf] at h
      exact List.mem_cons_of_mem _ (ih h)

theorem read_text_some {all_files : List CodeFile} {p : String} {t : String}
    (h : read_text all_files p = some t) :
    ∃ cf ∈ all_files, cf.text = some t := by
  rcases Option.bind_eq_some.mp h with ⟨cf, hfind, htext⟩
  exact ⟨cf, List.mem_of_find?_eq_some hfind, htext⟩

theorem direct_parse_writers_ne_nil
    {parse_output_tables_from_header parse_insertinto_targets : String → List String}
    {parse_view_name : String → Option String}
    {fqtn : String} {all_files : List CodeFile} {candidates : List String}
    (h : direct_parse_writers parse_output_tables_from_header parse_insertinto_targets
      parse_view_name fqtn all_files candidates ≠ []) :
    ∃ cf ∈ all_files, ∃ t, cf.text = some t ∧
      (fqtn ∈ parse_output_tables_from_header t ++ parse_insertinto_targets t ∨
        parse_view_name t = some fqtn) := by
  rw [direct_parse_writers, Ne, List.filterMap_eq_nil_iff] at h
  push_neg at h
  rcases h with ⟨p, _, hfn⟩
  rcases hrt : read_text all_files p with _ | t
  · simp [hrt] at hfn
  · rcases read_text_some hrt with ⟨cf, hcf, htext⟩
    refine ⟨cf, hcf, t, htext, ?_⟩
    by_cases hin : fqtn ∈ parse_output_tables_from_header t ++ parse_insertinto_targets t
    · exact Or.inl hin
    · rcases hpv : parse_view_name t with _ | v
      · simp [hrt, hin, hpv] at hfn
      · by_cases hv : v = fqtn
        · exact Or.inr (congrArg some hv)
        · simp [hrt, hin, hpv, hv] at hfn

theorem find_writers_for_table_eq
    (parse_output_tables_from_header parse_insertinto_targets : String → List String)
    (parse_view_name : String → Option String)
    (fqtn : String) (all_files : List CodeFile) (writers_index : WritersIndex) :
    find_writers_for_table parse_output_tables_from_header parse_insertinto_targets
        parse_view_name fqtn all_files writers_index =
      dedup_writers
        (if ((writers_index.lookup (lowerAscii fqtn)).getD []).filter
            (fun w => (filter_candidate_files_by_name all_files
              (lowerAscii fqtn)).contains w.file_path) = [] then
          direct_parse_writers parse_output_tables_from_header parse_insertinto_targets
            parse_view_name (lowerAscii fqtn) all_files
            (filter_candidate_files_by_name all_files (lowerAscii fqtn))
        else
          ((writers_index.lookup (lowerAscii fqtn)).getD []).filter
            (fun w => (filter_candidate_files_by_name all_files
              (lowerAscii fqtn)).contains w.file_path)) := by
  cases hlk : List.lookup (lowerAscii fqtn) writers_index with
  | none => simp [find_writers_for_table, hlk]
  | some ws => simp [find_writers_for_table, hlk]

theorem find_writers_mem_universe
    {parse_output_tables_from_header parse_insertinto_targets : String → List String}
    {parse_view_name : String → Option String}
    {fqtn : String} {all_files : List CodeFile} {writers_index : WritersIndex}
    (h : find_writers_for_table parse_output_tables_from_header parse_insertinto_targets
      parse_view_name fqtn all_files writers_index ≠ []) :
    lowerAscii fqtn ∈ universe_tables parse_output_tables_from_header
      parse_insertinto_targets parse_view_name all_files writers_index := by
  rw [find_writers_for_table_eq] at h
  rw [universe_tables]
  by_cases hflt : ((writers_index.lookup (lowerAscii fqtn)).getD []).filter
      (fun w => (filter_candidate_files_by_name all_files
        (lowerAscii fqtn)).contains w.file_path) = []
  · rw [if_pos hflt] at h
    have hne : direct_parse_writers parse_output_tables_from_header parse_insertinto_targets
        parse_view_name (lowerAscii fqtn) all_files
        (filter_candidate_files_by_name all_files (lowerAscii fqtn)) ≠ [] := by
      intro hnil; rw [hnil] at h; exact h rfl
    rcases direct_parse_writers_ne_nil hne with ⟨cf, hcf, t, htext, hor⟩
    refine List.mem_append_right _ (List.mem_flatMap.mpr ⟨cf, hcf, ?_⟩)
    rw [htext]
    rcases hor with hin | hpv
    · exact List.mem_append_left _ hin
    · exact List.mem_append_right _ (by simp [hpv])
  · rcases hlk : writers_index.lookup (lowerAscii fqtn) with _ | ws
    · rw [hlk] at hflt
      simp at hflt
    · exact List.mem_append_left _ (lookup_some_mem_keys hlk)

/-! ### Fuel adequacy for the enumerator -/

theorem countP_visited_lt {U visited : List String} {a : String}
    (haU : a ∈ U) (hav : a ∉ visited) :
    U.countP (fun x => !((visited ++ [a]).contains x)) <
      U.countP (fun x => !(visited.contains x)) := by
  have himp : ∀ x : String, (!((visited ++ [a]).contains x)) = true →
      (!(visited.contains x)) = true := by
    intro x hx
    simp only [Bool.not_eq_true'] at hx ⊢
    rw [← Bool.not_eq_true] at hx ⊢
    intro hc
    exact hx (List.elem_iff.mpr (List.mem_append_left _ (List.elem_iff.mp hc)))
  induction U with
  | nil => simp at haU
  | cons u U ih =>
    rw [List.countP_cons, List.countP_cons]
    rcases List.mem_cons.mp haU with heq | haU'
    · subst heq
      have h1 : ((visited ++ [a]).contains a) = true :=
        List.elem_iff.mpr (List.mem_append_right _ (List.mem_singleton.mpr rfl))
      have h2 : (visited.contains a) = false := by
        rw [← Bool.not_eq_true]
        intro hc
        exact hav (List.elem_iff.mp hc)
      have hmono := List.countP_mono_left (l := U)
        (p := fun x => !((visited ++ [a]).contains x))
        (q := fun x => !(visited.contains x)) (fun x _ hx => himp x hx)
      simp [hav] at hmono ⊢
      omega
    · have hstep := ih haU'
      have hmono : (if (!((visited ++ [a]).contains u)) = true then 1 else 0) ≤
          (if (!(visited.contains u)) = true then 1 else 0) := by
        by_cases hu : (!((visited ++ [a]).contains u)) = true
        · rw [if_pos hu, if_pos (himp u hu)]
        · rw [if_neg hu]; omega
      omega

section EnumLemmas

variable {parse_output_tables_from_header parse_insertinto_targets : String → List String}
variable {parse_view_name : String → Option String}
variable {extract_upstreams_from_spark extract_upstreams_from_view : String → List String}

theorem dfs_step_cut {recur : String → List String → UpstreamCache →
      Option (List (List String) × UpstreamCache)}
    {s : String} {files : List CodeFile} {idx : WritersIndex}
    {visited : List String} {cache : UpstreamCache}
    (hv : lowerAscii s ∈ visited) :
    dfs_step parse_output_tables_from_header parse_insertinto_targets parse_view_name
        extract_upstreams_from_spark extract_upstreams_from_view
        recur s files idx visited cache = some ([[lowerAscii s]], cache) := by
  simp [dfs_step, hv]

theorem dfs_step_no_cycle {recur : String → List String → UpstreamCache →
      Option (List (List String) × UpstreamCache)}
    {s : String} {files : List CodeFile} {idx : WritersIndex}
    {visited : List String} {cache : UpstreamCache}
    (hv : lowerAscii s ∉ visited) (hcl : cache.lookup (lowerAscii s) = none) :
    dfs_step parse_output_tables_from_header parse_insertinto_targets parse_view_name
        extract_upstreams_from_spark extract_upstreams_from_view
        recur s files idx visited cache =
      (if find_writers_for_table parse_output_tables_from_header parse_insertinto_targets
            parse_view_name (lowerAscii s) files idx = [] ∨
          upstream_union_of parse_output_tables_from_header parse_insertinto_targets
            parse_view_name extract_upstreams_from_spark extract_upstreams_from_view
            (lowerAscii s) files idx = [] then
        some ([[lowerAscii s]],
          (lowerAscii s, upstream_union_of parse_output_tables_from_header
            parse_insertinto_targets parse_view_name extract_upstreams_from_spark
            extract_upstreams_from_view (lowerAscii s) files idx) :: cache)
      else
        dfs_branch_run (fun up c => recur up (visited ++ [lowerAscii s]) c) (lowerAscii s)
          (sortedSet (upstream_union_of parse_output_tables_from_header
            parse_insertinto_targets parse_view_name extract_upstreams_from_spark
            extract_upstreams_from_view (lowerAscii s) files idx))
          ((lowerAscii s, upstream_union_of parse_output_tables_from_header
            parse_insertinto_targets parse_view_name extract_upstreams_from_spark
            extract_upstreams_from_view (lowerAscii s) files idx) :: cache)) := by
  simp [dfs_step, hv, hcl, upstream_union_of]

theorem dfs_step_cached {recur : String → List String → UpstreamCache →
      Option (List (List String) × UpstreamCache)}
    {s : String} {files : List CodeFile} {idx : WritersIndex}
    {visited : List String} {cache : UpstreamCache} {u : List String}
    (hv : lowerAscii s ∉ visited) (hcl : cache.lookup (lowerAscii s) = some u) :
    dfs_step parse_output_tables_from_header parse_insertinto_targets parse_view_name
        extract_upstreams_from_spark extract_upstreams_from_view
        recur s files idx visited cache =
      (if find_writers_for_table parse_output_tables_from_header parse_insertinto_targets
            parse_view_name (lowerAscii s) files idx = [] ∨ u = [] then
        some ([[lowerAscii s]], cache)
      else
        dfs_branch_run (fun up c => recur up (visited ++ [lowerAscii s]) c) (lowerAscii s)
          (sortedSet u) cache) := by
  simp [dfs_step, hv, hcl]

theorem dfs_fuel_succ (fuel : Nat) (s : String) (files : List CodeFile)
    (idx : WritersIndex) (visited : List String) (cache : UpstreamCache) :
    dfs_lineage_paths_fuel parse_output_tables_from_header parse_insertinto_targets
        parse_view_name extract_upstreams_from_spark extract_upstreams_from_view
        (fuel + 1) s files idx visited cache =
      dfs_step parse_output_tables_from_header parse_insertinto_targets parse_view_name
        extract_upstreams_from_spark extract_upstreams_from_view
        (fun up vis c => dfs_lineage_paths_fuel parse_output_tables_from_header
          parse_insertinto_targets parse_view_name extract_upstreams_from_spark
          extract_upstreams_from_view fuel up files idx vis c)
        s files idx visited cache := rfl

theorem dfs_branch_run_isSome
    {callee : String → UpstreamCache → Option (List (List String) × UpstreamCache)}
    {start : String} (h : ∀ up c, (callee up c).isSome) :
    ∀ (ups : List String) (cache : UpstreamCache),
      (dfs_branch_run callee start ups cache).isSome := by
  intro ups
  induction ups with
  | nil => intro cache; simp [dfs_branch_run]
  | cons up rest ih =>
    intro cache
    rw [dfs_branch_run]
    rcases hc : callee up cache with _ | ⟨sub, c1⟩
    · have := h up cache
      rw [hc] at this
      simp at this
    · rcases hr : dfs_branch_run callee start rest c1 with _ | ⟨more, c2⟩
      · have := ih c1
        rw [hr] at this
        simp at this
      · simp [hc, hr]

theorem dfs_fuel_isSome :
    ∀ (fuel : Nat) (s : String) (files : List CodeFile) (idx : WritersIndex)
      (visited : List String) (cache : UpstreamCache),
      (universe_tables parse_output_tables_from_header parse_insertinto_targets
          parse_view_name files idx).countP (fun x => !(visited.contains x)) < fuel →
      (dfs_lineage_paths_fuel parse_output_tables_from_header parse_insertinto_targets
        parse_view_name extract_upstreams_from_spark extract_upstreams_from_view
        fuel s files idx visited cache).isSome := by
  intro fuel
  induction fuel with
  | zero => intro s files idx visited cache h; omega
  | succ fuel ih =>
    intro s files idx visited cache h
    rw [dfs_fuel_succ]
    by_cases hv : lowerAscii s ∈ visited
    · rw [dfs_step_cut hv]
      simp
    · have hbranch : ∀ (hwr : find_writers_for_table parse_output_tables_from_header
          parse_insertinto_targets parse_view_name (lowerAscii s) files idx ≠ [])
          (up : String) (c : UpstreamCache),
          (dfs_lineage_paths_fuel parse_output_tables_from_header parse_insertinto_targets
            parse_view_name extract_upstreams_from_spark extract_upstreams_from_view
            fuel up files idx (visited ++ [lowerAscii s]) c).isSome := by
        intro hwr up c
        apply ih
        have hmem := find_writers_mem_universe hwr
        rw [lowerAscii_idem] at hmem
        have hlt := countP_visited_lt hmem hv
        omega
      rcases hcl : List.lookup (lowerAscii s) cache with _ | u
      · rw [dfs_step_no_cycle hv hcl]
        by_cases hterm : find_writers_for_table parse_output_tables_from_header
            parse_insertinto_targets parse_view_name (lowerAscii s) files idx = [] ∨
            upstream_union_of parse_output_tables_from_header parse_insertinto_targets
              parse_view_name extract_upstreams_from_spark extract_upstreams_from_view
              (lowerAscii s) files idx = []
        · rw [if_pos hterm]; simp
        · rw [if_neg hterm]
          exact dfs_branch_run_isSome
            (fun up c => hbranch (fun hnil => hterm (Or.inl hnil)) up c) _ _
      · rw [dfs_step_cached hv hcl]
        by_cases hterm : find_writers_for_table parse_output_tables_from_header
            parse_insertinto_targets parse_view_name (lowerAscii s) files idx = [] ∨ u = []
        · rw [if_pos hterm]; simp
        · rw [if_neg hterm]
          exact dfs_branch_run_isSome
            (fun up c => hbranch (fun hnil => hterm (Or.inl hnil)) up c) _ _

end EnumLemmas

section WrapperLemmas

variable {parse_output_tables_from_header parse_insertinto_targets : String → List String}
variable {parse_view_name : String → Option String}
variable {extract_upstreams_from_spark extract_upstreams_from_view : String → List String}

theorem dfs_lineage_paths_spec (s : String) (files : List CodeFile) (idx : WritersIndex)
    (visited : List String) (cache : UpstreamCache) :
    dfs_lineage_paths_fuel parse_output_tables_from_header parse_insertinto_targets
        parse_view_name extract_upstreams_from_spark extract_upstreams_from_view
        (dfs_fuel_bound parse_output_tables_from_header parse_insertinto_targets
          parse_view_name files idx visited) s files idx visited cache =
      some (dfs_lineage_paths parse_output_tables_from_header parse_insertinto_targets
        parse_view_name extract_upstreams_from_spark extract_upstreams_from_view
        s files idx visited cache) := by
  have h := @dfs_fuel_isSome parse_output_tables_from_header
    parse_insertinto_targets parse_view_name extract_upstreams_from_spark
    extract_upstreams_from_view
    (dfs_fuel_bound parse_output_tables_from_header parse_insertinto_targets
      parse_view_name files idx visited) s files idx visited cache
    (by rw [dfs_fuel_bound]; omega)
  rcases Option.isSome_iff_exists.mp h with ⟨r, hr⟩
  rw [dfs_lineage_paths, hr, Option.getD_some]

theorem dfs_branch_run_congr_some
    {c1 c2 : String → UpstreamCache → Option (List (List String) × UpstreamCache)}
    {start : String} (h : ∀ up cc r, c1 up cc = some r → c2 up cc = some r) :
    ∀ {ups : List String} {cache : UpstreamCache} {r},
      dfs_branch_run c1 start ups cache = some r →
      dfs_branch_run c2 start ups cache = some r := by
  intro ups
  induction ups with
  | nil => intro cache r hr; simpa [dfs_branch_run] using hr
  | cons up rest ih =>
    intro cache r hr
    rw [dfs_branch_run] at hr ⊢
    rcases hc : c1 up cache with _ | ⟨sub, cc1⟩
    · rw [hc] at hr; simp at hr
    · simp only [hc] at hr
      simp only [h up cache _ hc]
      rcases hb : dfs_branch_run c1 start rest cc1 with _ | ⟨more, cc2⟩
      · simp only [hb] at hr; simp at hr
      · simp only [hb] at hr
        simp only [ih hb]
        exact hr

theorem dfs_step_congr_some
    {recur1 recur2 : String → List String → UpstreamCache →
      Option (List (List String) × UpstreamCache)}
    (h : ∀ up vis c r, recur1 up vis c = some r → recur2 up vis c = some r)
    {s : String} {files : List CodeFile} {idx : WritersIndex}
    {visited : List String} {cache : UpstreamCache} {r} :
    dfs_step parse_output_tables_from_header parse_insertinto_targets parse_view_name
      extract_upstreams_from_spark extract_upstreams_from_view
      recur1 s files idx visited cache = some r →
    dfs_step parse_output_tables_from_header parse_insertinto_targets parse_view_name
      extract_upstreams_from_spark extract_upstreams_from_view
      recur2 s files idx visited cache = some r := by
  intro hr
  by_cases hv : lowerAscii s ∈ visited
  · rw [dfs_step_cut hv] at hr ⊢; exact hr
  · rcases hcl : List.lookup (lowerAscii s) cache with _ | u
    · rw [dfs_step_no_cycle hv hcl] at hr ⊢
      by_cases hterm : find_writers_for_table parse_output_tables_from_header
          parse_insertinto_targets parse_view_name (lowerAscii s) files idx = [] ∨
          upstream_union_of parse_output_tables_from_header parse_insertinto_targets
            parse_view_name extract_upstreams_from_spark extract_upstreams_from_view
            (lowerAscii s) files idx = []
      · rw [if_pos hterm] at hr ⊢; exact hr
      · rw [if_neg hterm] at hr ⊢
        exact dfs_branch_run_congr_some (fun up cc rr hcc => h up _ cc rr hcc) hr
    · rw [dfs_step_cached hv hcl] at hr ⊢
      by_cases hterm : find_writers_for_table parse_output_tables_from_header
          parse_insertinto_targets parse_view_name (lowerAscii s) files idx = [] ∨ u = []
      · rw [if_pos hterm] at hr ⊢; exact hr
      · rw [if_neg hterm] at hr ⊢
        exact dfs_branch_run_congr_some (fun up cc rr hcc => h up _ cc rr hcc) hr

theorem dfs_fuel_mono : ∀ {fuel fuel' : Nat}, fuel ≤ fuel' →
    ∀ {s : String} {files : List CodeFile} {idx : WritersIndex}
      {visited : List String} {cache : UpstreamCache} {r},
      dfs_lineage_paths_fuel parse_output_tables_from_header parse_insertinto_targets
        parse_view_name extract_upstreams_from_spark extract_upstreams_from_view
        fuel s files idx visited cache = some r →
      dfs_lineage_paths_fuel parse_output_tables_from_header parse_insertinto_targets
        parse_view_name extract_upstreams_from_spark extract_upstreams_from_view
        fuel' s files idx visited cache = some r := by
  intro fuel
  induction fuel with
  | zero =>
    intro fuel' hle s files idx visited cache r hr
    simp [dfs_lineage_paths_fuel] at hr
  | succ fuel ih =>
    intro fuel' hle s files idx visited cache r hr
    rcases fuel' with _ | fuel'
    · omega
    · rw [dfs_fuel_succ] at hr
      rw [dfs_fuel_succ]
      exact dfs_step_congr_some (fun up vis c rr hc => ih (by omega) hc) hr

theorem dfs_fuel_agree {fuel1 fuel2 : Nat} {s : String} {files : List CodeFile}
    {idx : WritersIndex} {visited : List String} {cache : UpstreamCache}
    (h1 : (universe_tables parse_output_tables_from_header parse_insertinto_targets
      parse_view_name files idx).countP (fun x => !(visited.contains x)) < fuel1)
    (h2 : (universe_tables parse_output_tables_from_header parse_insertinto_targets
      parse_view_name files idx).countP (fun x => !(visited.contains x)) < fuel2) :
    dfs_lineage_paths_fuel parse_output_tables_from_header parse_insertinto_targets
      parse_view_name extract_upstreams_from_spark extract_upstreams_from_view
      fuel1 s files idx visited cache =
    dfs_lineage_paths_fuel parse_output_tables_from_header parse_insertinto_targets
      parse_view_name extract_upstreams_from_spark extract_upstreams_from_view
      fuel2 s files idx visited cache := by
  rcases Option.isSome_iff_exists.mp
    (dfs_fuel_isSome fuel1 s files idx visited cache h1) with ⟨r1, hr1⟩
  rcases Option.isSome_iff_exists.mp
    (dfs_fuel_isSome fuel2 s files idx visited cache h2) with ⟨r2, hr2⟩
  have e1 := dfs_fuel_mono (Nat.le_max_left fuel1 fuel2) hr1
  have e2 := dfs_fuel_mono (Nat.le_max_right fuel1 fuel2) hr2
  rw [hr1, hr2]
  rw [e1] at e2
  exact e2

theorem dfs_fuel_eq_some_wrapper {fuel : Nat} {s : String} {files : List CodeFile}
    {idx : WritersIndex} {visited : List String} (cache : UpstreamCache)
    (h : (universe_tables parse_output_tables_from_header parse_insertinto_targets
      parse_view_name files idx).countP (fun x => !(visited.contains x)) < fuel) :
    dfs_lineage_paths_fuel parse_output_tables_from_header parse_insertinto_targets
      parse_view_name extract_upstreams_from_spark extract_upstreams_from_view
      fuel s files idx visited cache =
    some (dfs_lineage_paths parse_output_tables_from_header parse_insertinto_targets
      parse_view_name extract_upstreams_from_spark extract_upstreams_from_view
      s files idx visited cache) := by
  rw [dfs_fuel_agree h (show _ < dfs_fuel_bound parse_output_tables_from_header
    parse_insertinto_targets parse_view_name files idx visited by
      rw [dfs_fuel_bound]; omega)]
  exact dfs_lineage_paths_spec s files idx visited cache

theorem dfs_lineage_paths_unfold (s : String) (files : List CodeFile) (idx : WritersIndex)
    (visited : List String) (cache : UpstreamCache) :
    dfs_lineage_paths parse_output_tables_from_header parse_insertinto_targets
        parse_view_name extract_upstreams_from_spark extract_upstreams_from_view
        s files idx visited cache =
      (dfs_step parse_output_tables_from_header parse_insertinto_targets parse_view_name
        extract_upstreams_from_spark extract_upstreams_from_view
        (fun up vis c => some (dfs_lineage_paths parse_output_tables_from_header
          parse_insertinto_targets parse_view_name extract_upstreams_from_spark
          extract_upstreams_from_view up files idx vis c))
        s files idx visited cache).getD ([], cache) := by
  have hspec := @dfs_lineage_paths_spec parse_output_tables_from_header
    parse_insertinto_targets parse_view_name extract_upstreams_from_spark
    extract_upstreams_from_view s files idx visited cache
  rw [show dfs_fuel_bound parse_output_tables_from_header parse_insertinto_targets
      parse_view_name files idx visited =
      ((universe_tables parse_output_tables_from_header parse_insertinto_targets
        parse_view_name files idx).countP (fun x => !(visited.contains x))) + 1 from rfl,
    dfs_fuel_succ] at hspec
  by_cases hv : lowerAscii s ∈ visited
  · rw [dfs_step_cut hv] at hspec
    rw [dfs_step_cut hv, Option.getD_some]
    exact (Option.some_injective _ hspec).symm
  · rcases hcl : List.lookup (lowerAscii s) cache with _ | u
    · rw [dfs_step_no_cycle hv hcl] at hspec
      rw [dfs_step_no_cycle hv hcl]
      by_cases hterm : find_writers_for_table parse_output_tables_from_header
          parse_insertinto_targets parse_view_name (lowerAscii s) files idx = [] ∨
          upstream_union_of parse_output_tables_from_header parse_insertinto_targets
            parse_view_name extract_upstreams_from_spark extract_upstreams_from_view
            (lowerAscii s) files idx = []
      · rw [if_pos hterm] at hspec
        rw [if_pos hterm, Option.getD_some]
        exact (Option.some_injective _ hspec).symm
      · rw [if_neg hterm] at hspec
        rw [if_neg hterm]
        have hk : (universe_tables parse_output_tables_from_header parse_insertinto_targets
            parse_view_name files idx).countP
              (fun x => !((visited ++ [lowerAscii s]).contains x)) <
            (universe_tables parse_output_tables_from_header parse_insertinto_targets
            parse_view_name files idx).countP (fun x => !(visited.contains x)) := by
          have hwr : find_writers_for_table parse_output_tables_from_header
              parse_insertinto_targets parse_view_name (lowerAscii s) files idx ≠ [] :=
            fun hnil => hterm (Or.inl hnil)
          have hmem := find_writers_mem_universe hwr
          rw [lowerAscii_idem] at hmem
          exact countP_visited_lt hmem hv
        have hcallee : (fun up c => dfs_lineage_paths_fuel parse_output_tables_from_header
            parse_insertinto_targets parse_view_name extract_upstreams_from_spark
            extract_upstreams_from_view
            ((universe_tables parse_output_tables_from_header parse_insertinto_targets
              parse_view_name files idx).countP (fun x => !(visited.contains x)))
            up files idx (visited ++ [lowerAscii s]) c) =
            (fun up c => some (dfs_lineage_paths parse_output_tables_from_header
              parse_insertinto_targets parse_view_name extract_upstreams_from_spark
              extract_upstreams_from_view up files idx (visited ++ [lowerAscii s]) c)) := by
          funext up c
          exact dfs_fuel_eq_some_wrapper c hk
        rw [hcallee] at hspec
        rw [hspec, Option.getD_some]
    · rw [dfs_step_cached hv hcl] at hspec
      rw [dfs_step_cached hv hcl]
      by_cases hterm : find_writers_for_table parse_output_tables_from_header
          parse_insertinto_targets parse_view_name (lowerAscii s) files idx = [] ∨ u = []
      · rw [if_pos hterm] at hspec
        rw [if_pos hterm, Option.getD_some]
        exact (Option.some_injective _ hspec).symm
      · rw [if_neg hterm] at hspec
        rw [if_neg hterm]
        have hk : (universe_tables parse_output_tables_from_header parse_insertinto_targets
            parse_view_name files idx).countP
              (fun x => !((visited ++ [lowerAscii s]).contains x)) <
            (universe_tables parse_output_tables_from_header parse_insertinto_targets
            parse_view_name files idx).countP (fun x => !(visited.contains x)) := by
          have hwr : find_writers_for_table parse_output_tables_from_header
              parse_insertinto_targets parse_view_name (lowerAscii s) files idx ≠ [] :=
            fun hnil => hterm (Or.inl hnil)
          have hmem := find_writers_mem_universe hwr
          rw [lowerAscii_idem] at hmem
          exact countP_visited_lt hmem hv
        have hcallee : (fun up c => dfs_lineage_paths_fuel parse_output_tables_from_header
            parse_insertinto_targets parse_view_name extract_upstreams_from_spark
            extract_upstreams_from_view
            ((universe_tables parse_output_tables_from_header parse_insertinto_targets
              parse_view_name files idx).countP (fun x => !(visited.contains x)))
            up files idx (visited ++ [lowerAscii s]) c) =
            (fun up c => some (dfs_lineage_paths parse_output_tables_from_header
              parse_insertinto_targets parse_view_name extract_upstreams_from_spark
              extract_upstreams_from_view up files idx (visited ++ [lowerAscii s]) c)) := by
          funext up c
          exact dfs_fuel_eq_some_wrapper c hk
        rw [hcallee] at hspec
        rw [hspec, Option.getD_some]

end WrapperLemmas

section PathShape

variable {parse_output_tables_from_header parse_insertinto_targets : String → List String}
variable {parse_view_name : String → Option String}
variable {extract_upstreams_from_spark extract_upstreams_from_view : String → List String}

theorem dfs_branch_run_mem_shape
    {callee : String → UpstreamCache → Option (List (List String) × UpstreamCache)}
    {start : String} (Q : String → List String → Prop)
    (hc : ∀ up c ps cc, callee up c = some (ps, cc) → ∀ sp ∈ ps, Q up sp) :
    ∀ {ups : List String} {cache : UpstreamCache} {all c₂},
      dfs_branch_run callee start ups cache = some (all, c₂) →
      ∀ p ∈ all, ∃ up ∈ ups, ∃ sp, Q up sp ∧ p = start :: sp := by
  intro ups
  induction ups with
  | nil =>
    intro cache all c₂ h p hp
    rw [dfs_branch_run] at h
    rcases h
    simp at hp
  | cons up rest ih =>
    intro cache all c₂ h p hp
    rw [dfs_branch_run] at h
    rcases hcall : callee up cache with _ | ⟨sub, cc1⟩
    · rw [hcall] at h; simp at h
    · simp only [hcall] at h
      rcases hb : dfs_branch_run callee start rest cc1 with _ | ⟨more, cc2⟩
      · simp only [hb] at h; simp at h
      · simp only [hb] at h
        rcases h
        rcases List.mem_append.mp hp with hmap | hmore
        · rcases List.mem_map.mp hmap with ⟨sp, hsp, rfl⟩
          exact ⟨up, List.mem_cons_self _ _, sp, hc up cache sub cc1 hcall sp hsp, rfl⟩
        · rcases ih hb p hmore with ⟨u2, hu2, sp, hQ, hps⟩
          exact ⟨u2, List.mem_cons_of_mem _ hu2, sp, hQ, hps⟩

theorem dfs_branch_run_ne_nil
    {callee : String → UpstreamCache → Option (List (List String) × UpstreamCache)}
    {start : String}
    (hc : ∀ up c ps cc, callee up c = some (ps, cc) → ps ≠ []) :
    ∀ {ups : List String} {cache : UpstreamCache} {all c₂}, ups ≠ [] →
      dfs_branch_run callee start ups cache = some (all, c₂) → all ≠ [] := by
  intro ups
  cases ups with
  | nil => intro cache all c₂ hne; exact absurd rfl hne
  | cons up rest =>
    intro cache all c₂ _ h
    rw [dfs_branch_run] at h
    rcases hcall : callee up cache with _ | ⟨sub, cc1⟩
    · rw [hcall] at h; simp at h
    · simp only [hcall] at h
      rcases hb : dfs_branch_run callee start rest cc1 with _ | ⟨more, cc2⟩
      · simp only [hb] at h; simp at h
      · simp only [hb] at h
        rcases h
        have hsub := hc up cache sub cc1 hcall
        intro hnil
        rcases List.append_eq_nil.mp hnil with ⟨hmap, _⟩
        exact hsub (List.map_eq_nil_iff.mp hmap)

theorem dfs_fuel_ne_nil :
    ∀ {fuel : Nat} {s : String} {files : List CodeFile} {idx : WritersIndex}
      {visited : List String} {cache : UpstreamCache} {paths c₂},
      dfs_lineage_paths_fuel parse_output_tables_from_header parse_insertinto_targets
        parse_view_name extract_upstreams_from_spark extract_upstreams_from_view
        fuel s files idx visited cache = some (paths, c₂) → paths ≠ [] := by
  intro fuel
  induction fuel with
  | zero =>
    intro s files idx visited cache paths c₂ h
    simp [dfs_lineage_paths_fuel] at h
  | succ fuel ih =>
    intro s files idx visited cache paths c₂ h
    rw [dfs_fuel_succ] at h
    by_cases hv : lowerAscii s ∈ visited
    · rw [dfs_step_cut hv] at h
      rcases h
      simp
    · rcases hcl : List.lookup (lowerAscii s) cache with _ | u
      · rw [dfs_step_no_cycle hv hcl] at h
        by_cases hterm : find_writers_for_table parse_output_tables_from_header
            parse_insertinto_targets parse_view_name (lowerAscii s) files idx = [] ∨
            upstream_union_of parse_output_tables_from_header parse_insertinto_targets
              parse_view_name extract_upstreams_from_spark extract_upstreams_from_view
              (lowerAscii s) files idx = []
        · rw [if_pos hterm] at h
          rcases h
          simp
        · rw [if_neg hterm] at h
          exact dfs_branch_run_ne_nil (fun up c ps cc hcall => ih hcall)
            (sortedSet_ne_nil (fun hnil => hterm (Or.inr hnil))) h
      · rw [dfs_step_cached hv hcl] at h
        by_cases hterm : find_writers_for_table parse_output_tables_from_header
            parse_insertinto_targets parse_view_name (lowerAscii s) files idx = [] ∨ u = []
        · rw [if_pos hterm] at h
          rcases h
          simp
        · rw [if_neg hterm] at h
          exact dfs_branch_run_ne_nil (fun up c ps cc hcall => ih hcall)
            (sortedSet_ne_nil (fun hnil => hterm (Or.inr hnil))) h

theorem dfs_fuel_head {fuel : Nat} {s : String} {files : List CodeFile} {idx : WritersIndex}
    {visited : List String} {cache : UpstreamCache} {paths c₂}
    (h : dfs_lineage_paths_fuel parse_output_tables_from_header parse_insertinto_targets
      parse_view_name extract_upstreams_from_spark extract_upstreams_from_view
      fuel s files idx visited cache = some (paths, c₂)) :
    ∀ p ∈ paths, ∃ tl, p = lowerAscii s :: tl := by
  intro p hp
  rcases fuel with _ | fuel
  · simp [dfs_lineage_paths_fuel] at h
  · rw [dfs_fuel_succ] at h
    by_cases hv : lowerAscii s ∈ visited
    · rw [dfs_step_cut hv] at h
      rcases h
      rcases List.mem_singleton.mp hp with rfl
      exact ⟨[], rfl⟩
    · rcases hcl : List.lookup (lowerAscii s) cache with _ | u
      · rw [dfs_step_no_cycle hv hcl] at h
        by_cases hterm : find_writers_for_table parse_output_tables_from_header
            parse_insertinto_targets parse_view_name (lowerAscii s) files idx = [] ∨
            upstream_union_of parse_output_tables_from_header parse_insertinto_targets
              parse_view_name extract_upstreams_from_spark extract_upstreams_from_view
              (lowerAscii s) files idx = []
        · rw [if_pos hterm] at h
          rcases h
          rcases List.mem_singleton.mp hp with rfl
          exact ⟨[], rfl⟩
        · rw [if_neg hterm] at h
          rcases dfs_branch_run_mem_shape (fun _ _ => True)
            (fun _ _ _ _ _ _ _ => trivial) h p hp with ⟨_, _, sp, _, rfl⟩
          exact ⟨sp, rfl⟩
      · rw [dfs_step_cached hv hcl] at h
        by_cases hterm : find_writers_for_table parse_output_tables_from_header
            parse_insertinto_targets parse_view_name (lowerAscii s) files idx = [] ∨ u = []
        · rw [if_pos hterm] at h
          rcases h
          rcases List.mem_singleton.mp hp with rfl
          exact ⟨[], rfl⟩
        · rw [if_neg hterm] at h
          rcases dfs_branch_run_mem_shape (fun _ _ => True)
            (fun _ _ _ _ _ _ _ => trivial) h p hp with ⟨_, _, sp, _, rfl⟩
          exact ⟨sp, rfl⟩

theorem dfs_fuel_dropLast_nodup :
    ∀ {fuel : Nat} {s : String} {files : List CodeFile} {idx : WritersIndex}
      {visited : List String} {cache : UpstreamCache} {paths c₂},
      dfs_lineage_paths_fuel parse_output_tables_from_header parse_insertinto_targets
        parse_view_name extract_upstreams_from_spark extract_upstreams_from_view
        fuel s files idx visited cache = some (paths, c₂) →
      ∀ p ∈ paths, p.dropLast.Nodup ∧ ∀ x ∈ p.dropLast, x ∉ visited := by
  intro fuel
  induction fuel with
  | zero =>
    intro s files idx visited cache paths c₂ h
    simp [dfs_lineage_paths_fuel] at h
  | succ fuel ih =>
    intro s files idx visited cache paths c₂ h p hp
    have hsingle : p = [lowerAscii s] →
        p.dropLast.Nodup ∧ ∀ x ∈ p.dropLast, x ∉ visited := by
      rintro rfl
      simp
    have hbranchcase : ∀ {all : List (List String)}
        {callee : String → UpstreamCache → Option (List (List String) × UpstreamCache)}
        {ups cc c₃}, lowerAscii s ∉ visited →
        (∀ up c ps cc2, callee up c = some (ps, cc2) → ∀ sp ∈ ps,
          sp.dropLast.Nodup ∧ ∀ x ∈ sp.dropLast, x ∉ visited ++ [lowerAscii s]) →
        dfs_branch_run callee (lowerAscii s) ups cc = some (all, c₃) →
        p ∈ all → p.dropLast.Nodup ∧ ∀ x ∈ p.dropLast, x ∉ visited := by
      intro all callee ups cc c₃ hv hQ hrun hpall
      rcases dfs_branch_run_mem_shape
        (fun up sp => sp.dropLast.Nodup ∧ ∀ x ∈ sp.dropLast, x ∉ visited ++ [lowerAscii s])
        hQ hrun p hpall with ⟨up, _, sp, ⟨hnd, hnot⟩, rfl⟩
      cases sp with
      | nil => simp
      | cons y tl =>
        rw [List.dropLast_cons₂]
        constructor
        · refine List.nodup_cons.mpr ⟨?_, hnd⟩
          intro hmem
          exact (hnot _ hmem) (List.mem_append_right _ (List.mem_singleton.mpr rfl))
        · intro x hx
          rcases List.mem_cons.mp hx with rfl | hx2
          · exact hv
          · intro hxv
            exact (hnot x hx2) (List.mem_append_left _ hxv)
    rw [dfs_fuel_succ] at h
    by_cases hv : lowerAscii s ∈ visited
    · rw [dfs_step_cut hv] at h
      rcases h
      exact hsingle (List.mem_singleton.mp hp)
    · rcases hcl : List.lookup (lowerAscii s) cache with _ | u
      · rw [dfs_step_no_cycle hv hcl] at h
        by_cases hterm : find_writers_for_table parse_output_tables_from_header
            parse_insertinto_targets parse_view_name (lowerAscii s) files idx = [] ∨
            upstream_union_of parse_output_tables_from_header parse_insertinto_targets
              parse_view_name extract_upstreams_from_spark extract_upstreams_from_view
              (lowerAscii s) files idx = []
        · rw [if_pos hterm] at h
          rcases h
          exact hsingle (List.mem_singleton.mp hp)
        · rw [if_neg hterm] at h
          exact hbranchcase hv (fun up c ps cc2 hcall sp hsp => ih hcall sp hsp) h hp
      · rw [dfs_step_cached hv hcl] at h
        by_cases hterm : find_writers_for_table parse_output_tables_from_header
            parse_insertinto_targets parse_view_name (lowerAscii s) files idx = [] ∨ u = []
        · rw [if_pos hterm] at h
          rcases h
          exact hsingle (List.mem_singleton.mp hp)
        · rw [if_neg hterm] at h
          exact hbranchcase hv (fun up c ps cc2 hcall sp hsp => ih hcall sp hsp) h hp

end PathShape

section WrapperShape

variable {parse_output_tables_from_header parse_insertinto_targets : String → List String}
variable {parse_view_name : String → Option String}
variable {extract_upstreams_from_spark extract_upstreams_from_view : String → List String}

theorem dfs_lineage_paths_ne_nil (s : String) (files : List CodeFile) (idx : WritersIndex)
    (visited : List String) (cache : UpstreamCache) :
    (dfs_lineage_paths parse_output_tables_from_header parse_insertinto_targets
      parse_view_name extract_upstreams_from_spark extract_upstreams_from_view
      s files idx visited cache).1 ≠ [] :=
  dfs_fuel_ne_nil (dfs_lineage_paths_spec s files idx visited cache)

theorem dfs_lineage_paths_head (s : String) (files : List CodeFile) (idx : WritersIndex)
    (visited : List String) (cache : UpstreamCache) :
    ∀ p ∈ (dfs_lineage_paths parse_output_tables_from_header parse_insertinto_targets
      parse_view_name extract_upstreams_from_spark extract_upstreams_from_view
      s files idx visited cache).1, ∃ tl, p = lowerAscii s :: tl :=
  dfs_fuel_head (dfs_lineage_paths_spec s files idx visited cache)

theorem dfs_lineage_paths_dropLast_nodup (s : String) (files : List CodeFile)
    (idx : WritersIndex) (visited : List String) (cache : UpstreamCache) :
    ∀ p ∈ (dfs_lineage_paths parse_output_tables_from_header parse_insertinto_targets
      parse_view_name extract_upstreams_from_spark extract_upstreams_from_view
      s files idx visited cache).1,
      p.dropLast.Nodup ∧ ∀ x ∈ p.dropLast, x ∉ visited :=
  dfs_fuel_dropLast_nodup (dfs_lineage_paths_spec s files idx visited cache)

end WrapperShape

/-! ### Determinism under set-enumeration reordering (spec paragraph 8) -/

/-- Two caches agree up to the enumeration order of the stored upstream
sets: same keys in the same order, permuted value lists. -/
def cacheRel (c₁ c₂ : UpstreamCache) : Prop :=
  List.Forall₂ (fun a b => a.1 = b.1 ∧ List.Perm a.2 b.2) c₁ c₂

/-- Result relation for two enumerator runs: identical path lists,
related caches. -/
def dfsResultRel (o₁ o₂ : Option (List (List String) × UpstreamCache)) : Prop :=
  (o₁ = none ∧ o₂ = none) ∨
    (∃ p d₁ d₂, o₁ = some (p, d₁) ∧ o₂ = some (p, d₂) ∧ cacheRel d₁ d₂)

theorem cacheRel_lookup {c₁ c₂ : UpstreamCache} (h : cacheRel c₁ c₂) (k : String) :
    (c₁.lookup k = none ∧ c₂.lookup k = none) ∨
      (∃ u₁ u₂, c₁.lookup k = some u₁ ∧ c₂.lookup k = some u₂ ∧ List.Perm u₁ u₂) := by
  induction h with
  | nil => exact Or.inl ⟨rfl, rfl⟩
  | cons hab h2 ih =>
    rename_i a b l₁ l₂
    rcases hab with ⟨hk, hperm⟩
    rcases a with ⟨ka, va⟩
    rcases b with ⟨kb, vb⟩
    simp only at hk hperm
    subst hk
    by_cases hkk : k == ka
    · right
      exact ⟨va, vb, by simp [List.lookup, hkk], by simp [List.lookup, hkk], hperm⟩
    · have hkf : (k == ka) = false := by simpa using hkk
      simpa [List.lookup, hkf] using ih

theorem flatMap_perm_of_perm {α β : Type} {l : List α} {f g : α → List β}
    (h : ∀ a ∈ l, (f a).Perm (g a)) : (l.flatMap f).Perm (l.flatMap g) := by
  induction l with
  | nil => exact List.Perm.refl _
  | cons a as ih =>
    simp only [List.flatMap_cons]
    exact (h a (List.mem_cons_self _ _)).append
      (ih (fun x hx => h x (List.mem_cons_of_mem _ hx)))

section DetLemmas

variable {parse_output_tables_from_header parse_insertinto_targets : String → List String}
variable {parse_view_name : String → Option String}
variable {es₁ ev₁ es₂ ev₂ : String → List String}

theorem get_upstreams_perm (hES : ∀ t, (es₁ t).Perm (es₂ t))
    (hEV : ∀ t, (ev₁ t).Perm (ev₂ t)) (files : List CodeFile) (w : WriterInfo) :
    (get_upstreams_for_writer es₁ ev₁ files w).Perm
      (get_upstreams_for_writer es₂ ev₂ files w) := by
  rw [get_upstreams_for_writer, get_upstreams_for_writer]
  rcases read_text files w.file_path with _ | t
  · exact List.Perm.refl _
  · by_cases h1 : w.kind = "spark"
    · simp only [if_pos h1]
      exact hES t
    · simp only [if_neg h1]
      by_cases h2 : w.kind = "view"
      · simp only [if_pos h2]
        exact hEV t
      · simp only [if_neg h2]
        exact List.Perm.refl _

theorem dfs_branch_run_rel
    {cal₁ cal₂ : String → UpstreamCache → Option (List (List String) × UpstreamCache)}
    {start : String}
    (h : ∀ up cc₁ cc₂, cacheRel cc₁ cc₂ → dfsResultRel (cal₁ up cc₁) (cal₂ up cc₂)) :
    ∀ (ups : List String) {cache₁ cache₂ : UpstreamCache}, cacheRel cache₁ cache₂ →
      dfsResultRel (dfs_branch_run cal₁ start ups cache₁)
        (dfs_branch_run cal₂ start ups cache₂) := by
  intro ups
  induction ups with
  | nil =>
    intro cache₁ cache₂ hc
    exact Or.inr ⟨[], cache₁, cache₂, rfl, rfl, hc⟩
  | cons up rest ih =>
    intro cache₁ cache₂ hc
    rw [dfs_branch_run, dfs_branch_run]
    rcases h up cache₁ cache₂ hc with ⟨h1, h2⟩ | ⟨ps, d₁, d₂, h1, h2, hd⟩
    · rw [h1, h2]
      exact Or.inl ⟨rfl, rfl⟩
    · simp only [h1, h2]
      rcases ih hd with ⟨g1, g2⟩ | ⟨qs, e₁, e₂, g1, g2, he⟩
      · simp only [g1, g2]
        exact Or.inl ⟨rfl, rfl⟩
      · simp only [g1, g2]
        exact Or.inr ⟨ps.map (fun sp => start :: sp) ++ qs, e₁, e₂, rfl, rfl, he⟩

theorem dfs_fuel_rel (hES : ∀ t, (es₁ t).Perm (es₂ t))
    (hEV : ∀ t, (ev₁ t).Perm (ev₂ t)) :
    ∀ (fuel : Nat) (s : String) (files : List CodeFile) (idx : WritersIndex)
      (visited : List String) {c₁ c₂ : UpstreamCache}, cacheRel c₁ c₂ →
      dfsResultRel
        (dfs_lineage_paths_fuel parse_output_tables_from_header parse_insertinto_targets
          parse_view_name es₁ ev₁ fuel s files idx visited c₁)
        (dfs_lineage_paths_fuel parse_output_tables_from_header parse_insertinto_targets
          parse_view_name es₂ ev₂ fuel s files idx visited c₂) := by
  intro fuel
  induction fuel with
  | zero =>
    intro s files idx visited c₁ c₂ hc
    exact Or.inl ⟨rfl, rfl⟩
  | succ fuel ih =>
    intro s files idx visited c₁ c₂ hc
    rw [dfs_fuel_succ, dfs_fuel_succ]
    by_cases hv : lowerAscii s ∈ visited
    · rw [dfs_step_cut hv, dfs_step_cut hv]
      exact Or.inr ⟨[[lowerAscii s]], c₁, c₂, rfl, rfl, hc⟩
    · have hcallee : ∀ up cc₁ cc₂, cacheRel cc₁ cc₂ →
          dfsResultRel
            (dfs_lineage_paths_fuel parse_output_tables_from_header parse_insertinto_targets
              parse_view_name es₁ ev₁ fuel up files idx (visited ++ [lowerAscii s]) cc₁)
            (dfs_lineage_paths_fuel parse_output_tables_from_header parse_insertinto_targets
              parse_view_name es₂ ev₂ fuel up files idx (visited ++ [lowerAscii s]) cc₂) :=
        fun up cc₁ cc₂ hcc => ih up files idx (visited ++ [lowerAscii s]) hcc
      rcases cacheRel_lookup hc (lowerAscii s) with ⟨hn₁, hn₂⟩ | ⟨u₁, u₂, hs₁, hs₂, hperm⟩
      · rw [dfs_step_no_cycle hv hn₁, dfs_step_no_cycle hv hn₂]
        have hu : List.Perm
            (upstream_union_of parse_output_tables_from_header parse_insertinto_targets
              parse_view_name es₁ ev₁ (lowerAscii s) files idx)
            (upstream_union_of parse_output_tables_from_header parse_insertinto_targets
              parse_view_name es₂ ev₂ (lowerAscii s) files idx) := by
          rw [upstream_union_of, upstream_union_of]
          exact flatMap_perm_of_perm (fun w _ => get_upstreams_perm hES hEV files w)
        by_cases hterm : find_writers_for_table parse_output_tables_from_header
            parse_insertinto_targets parse_view_name (lowerAscii s) files idx = [] ∨
            upstream_union_of parse_output_tables_from_header parse_insertinto_targets
              parse_view_name es₁ ev₁ (lowerAscii s) files idx = []
        · have hterm₂ : find_writers_for_table parse_output_tables_from_header
              parse_insertinto_targets parse_view_name (lowerAscii s) files idx = [] ∨
              upstream_union_of parse_output_tables_from_header parse_insertinto_targets
                parse_view_name es₂ ev₂ (lowerAscii s) files idx = [] := by
            rcases hterm with h1 | h1
            · exact Or.inl h1
            · exact Or.inr (List.Perm.eq_nil (h1 ▸ hu).symm)
          rw [if_pos hterm, if_pos hterm₂]
          exact Or.inr ⟨[[lowerAscii s]], _, _, rfl, rfl,
            List.Forall₂.cons ⟨rfl, hu⟩ hc⟩
        · have hterm₂ : ¬ (find_writers_for_table parse_output_tables_from_header
              parse_insertinto_targets parse_view_name (lowerAscii s) files idx = [] ∨
              upstream_union_of parse_output_tables_from_header parse_insertinto_targets
                parse_view_name es₂ ev₂ (lowerAscii s) files idx = []) := by
            intro hcon
            refine hterm ?_
            rcases hcon with h1 | h1
            · exact Or.inl h1
            · exact Or.inr (List.Perm.eq_nil (h1 ▸ hu.symm).symm)
          rw [if_neg hterm, if_neg hterm₂]
          rw [sortedSet_eq_of_perm hu]
          exact dfs_branch_run_rel hcallee _ (List.Forall₂.cons ⟨rfl, hu⟩ hc)
      · rw [dfs_step_cached hv hs₁, dfs_step_cached hv hs₂]
        by_cases hterm : find_writers_for_table parse_output_tables_from_header
            parse_insertinto_targets parse_view_name (lowerAscii s) files idx = [] ∨ u₁ = []
        · have hterm₂ : find_writers_for_table parse_output_tables_from_header
              parse_insertinto_targets parse_view_name (lowerAscii s) files idx = [] ∨
              u₂ = [] := by
            rcases hterm with h1 | h1
            · exact Or.inl h1
            · exact Or.inr (List.Perm.eq_nil (h1 ▸ hperm).symm)
          rw [if_pos hterm, if_pos hterm₂]
          exact Or.inr ⟨[[lowerAscii s]], c₁, c₂, rfl, rfl, hc⟩
        · have hterm₂ : ¬ (find_writers_for_table parse_output_tables_from_header
              parse_insertinto_targets parse_view_name (lowerAscii s) files idx = [] ∨
              u₂ = []) := by
            intro hcon
            refine hterm ?_
            rcases hcon with h1 | h1
            · exact Or.inl h1
            · exact Or.inr (List.Perm.eq_nil (h1 ▸ hperm.symm).symm)
          rw [if_neg hterm, if_neg hterm₂]
          rw [sortedSet_eq_of_perm hperm]
          exact dfs_branch_run_rel hcallee _ hc

end DetLemmas

/-! ### Concrete corpora used by the claim theorems and witnesses -/

/-- Extractor that reports no tables, for corpora driven purely by the
writers index. -/
def noTables : String → List String := fun _ => []

/-- View-name extractor that never reports a view. -/
def noView : String → Option String := fun _ => none

/-- Mutual-writer corpus `A ← B ← A` from spec paragraph 8: the writer
file of `db.a` reads `db.b` and conversely. -/
def cycTextA : String := "db.a x db.b"

def cycTextB : String := "db.b x db.a"

def cycExtract : String → List String := fun t =>
  if t = cycTextA then ["db.b"] else if t = cycTextB then ["db.a"] else []

def cycFiles : List CodeFile := [⟨"fa", some cycTextA⟩, ⟨"fb", some cycTextB⟩]

def cycIndex : WritersIndex := [("db.a", [⟨"fa", "spark"⟩]), ("db.b", [⟨"fb", "spark"⟩])]

/-- A diamond-chain corpus: `d.t0` is produced from `d.a0` and `d.b0`,
both produced from `d.t1`, itself produced from `d.a1` and `d.b1`, both
produced from the source `d.t2`.  Extending the chain to `n` levels
doubles the path count per level (`2 ^ n` paths); two levels already
exhibit the full, unflagged enumeration. -/
def dmdText (n : String) : String := "x " ++ n ++ " x"

def dmdExtract : String → List String := fun t =>
  if t = dmdText "d.t0" then ["d.a0", "d.b0"]
  else if t = dmdText "d.a0" then ["d.t1"]
  else if t = dmdText "d.b0" then ["d.t1"]
  else if t = dmdText "d.t1" then ["d.a1", "d.b1"]
  else if t = dmdText "d.a1" then ["d.t2"]
  else if t = dmdText "d.b1" then ["d.t2"]
  else []

def dmdFiles : List CodeFile :=
  [⟨"ft0", some (dmdText "d.t0")⟩, ⟨"fa0", some (dmdText "d.a0")⟩,
   ⟨"fb0", some (dmdText "d.b0")⟩, ⟨"ft1", some (dmdText "d.t1")⟩,
   ⟨"fa1", some (dmdText "d.a1")⟩, ⟨"fb1", some (dmdText "d.b1")⟩]

def dmdIndex : WritersIndex :=
  [("d.t0", [⟨"ft0", "spark"⟩]), ("d.a0", [⟨"fa0", "spark"⟩]),
   ("d.b0", [⟨"fb0", "spark"⟩]), ("d.t1", [⟨"ft1", "spark"⟩]),
   ("d.a1", [⟨"fa1", "spark"⟩]), ("d.b1", [⟨"fb1", "spark"⟩])]

/-! ### Branch membership helper -/

theorem dfs_branch_run_mem_second
    {callee : String → UpstreamCache → Option (List (List String) × UpstreamCache)}
    {start : String}
    (hsome : ∀ u c, ∃ ps cc, callee u c = some (ps, cc) ∧ ps ≠ [] ∧
      ∀ sp ∈ ps, ∃ tl, sp = lowerAscii u :: tl) :
    ∀ {ups : List String} {cache : UpstreamCache} {all c₂} {up : String}, up ∈ ups →
      dfs_branch_run callee start ups cache = some (all, c₂) →
      ∃ tl, (start :: lowerAscii up :: tl) ∈ all := by
  intro ups
  induction ups with
  | nil => intro cache all c₂ up h; simp at h
  | cons u0 rest ih =>
    intro cache all c₂ up hmem hrun
    rw [dfs_branch_run] at hrun
    rcases hsome u0 cache with ⟨ps, cc, hcall, hne, hshape⟩
    simp only [hcall] at hrun
    rcases hb : dfs_branch_run callee start rest cc with _ | ⟨more, cc2⟩
    · simp only [hb] at hrun
      simp at hrun
    · simp only [hb] at hrun
      cases hrun
      rcases List.mem_cons.mp hmem with rfl | hrest
      · rcases List.exists_mem_of_ne_nil ps hne with ⟨sp, hsp⟩
        rcases hshape sp hsp with ⟨tl, rfl⟩
        exact ⟨tl, List.mem_append_left _ (List.mem_map_of_mem _ hsp)⟩
      · rcases ih hrest hb with ⟨tl, htl⟩
        exact ⟨tl, List.mem_append_right _ htl⟩

/-! ### Claim theorems -/

/-- Claim C2: the enumerator terminates on every finite writer graph,
cyclic ones included (`dfs_lineage_paths` is a total function of its
inputs); whenever the current table already appears in the ancestor
chain of the call, that branch recurses no further and returns exactly
the one-element path of that table with the cache untouched, while the
rest of the traversal continues — witnessed on the mutual-writer corpus
`db.a ← db.b ← db.a` of the spec, whose full run finishes and embeds the
cut branch in its single returned path. -/
theorem dfs_lineage_paths_cycle_cut :
    (∀ (po pi : String → List String) (pv : String → Option String)
      (es ev : String → List String)
      (start_fqtn : String) (all_files : List CodeFile) (writers_index : WritersIndex)
      (visited_stack : List String) (cache_upstreams : UpstreamCache),
      lowerAscii start_fqtn ∈ visited_stack →
      dfs_lineage_paths po pi pv es ev
        start_fqtn all_files writers_index visited_stack cache_upstreams =
        ([[lowerAscii start_fqtn]], cache_upstreams)) ∧
    (dfs_lineage_paths noTables noTables noView cycExtract noTables
      "db.a" cycFiles cycIndex [] []).1 = [["db.a", "db.b", "db.a"]] := by
  constructor
  · intro po pi pv es ev s files idx visited cache h
    rw [dfs_lineage_paths_unfold, dfs_step_cut h, Option.getD_some]
  · decide

theorem dfs_lineage_paths_cycle_cut_witness :
    lowerAscii "db.x" ∈ ["db.x", "db.y"] ∧
    dfs_lineage_paths noTables noTables noView noTables noTables
      "db.x" [] [] ["db.x", "db.y"] [] = ([["db.x"]], []) := by
  refine ⟨by decide, ?_⟩
  rw [dfs_lineage_paths_cycle_cut.1 noTables noTables noView noTables noTables
    "db.x" [] [] ["db.x", "db.y"] [] (by decide)]
  decide

/-- Claim C3 counterexample: on the mutual-writer corpus `db.a ← db.b ←
db.a` the enumerator returns the path `[db.a, db.b, db.a]`, which
contains the table `db.a` twice — a returned path is not always
duplicate-free. -/
theorem dfs_lineage_paths_repeated_table_cx :
    ["db.a", "db.b", "db.a"] ∈ (dfs_lineage_paths noTables noTables noView cycExtract
      noTables "db.a" cycFiles cycIndex [] []).1 ∧
    ¬ (["db.a", "db.b", "db.a"] : List String).Nodup := by
  constructor
  · decide
  · decide

/-- Claim C3 (amended): in every path returned by the enumerator, all
elements except possibly the last are pairwise distinct — the final
element may repeat an earlier table exactly when a cycle was cut there;
moreover no element before the last lies on the ancestor chain of the
call. -/
theorem dfs_lineage_paths_dropLast_nodup_claim
    (po pi : String → List String) (pv : String → Option String)
    (es ev : String → List String) (s : String) (files : List CodeFile)
    (idx : WritersIndex) (visited : List String) (cache : UpstreamCache) :
    ∀ p ∈ (dfs_lineage_paths po pi pv es ev s files idx visited cache).1,
      p.dropLast.Nodup ∧ ∀ x ∈ p.dropLast, x ∉ visited :=
  dfs_lineage_paths_dropLast_nodup s files idx visited cache

theorem dfs_lineage_paths_dropLast_nodup_claim_witness :
    ["db.a", "db.b", "db.a"] ∈ (dfs_lineage_paths noTables noTables noView cycExtract
      noTables "db.a" cycFiles cycIndex [] []).1 ∧
    (["db.a", "db.b", "db.a"] : List String).dropLast.Nodup := by
  refine ⟨by decide, ?_⟩
  exact (dfs_lineage_paths_dropLast_nodup_claim noTables noTables noView cycExtract
    noTables "db.a" cycFiles cycIndex [] [] _ (by decide)).1

/-- Claim C4: a target with no resolved writers, or whose resolved
upstream union is empty, enumerates from a fresh call to exactly the
single one-element path holding the canonical target, and shaping that
result emits exactly one row whose target and source fields both hold
the target and which has no other field (in particular no layer
field). -/
theorem dfs_lineage_paths_terminal_rule
    (po pi : String → List String) (pv : String → Option String)
    (es ev : String → List String) (target : String) (files : List CodeFile)
    (idx : WritersIndex)
    (h : find_writers_for_table po pi pv (lowerAscii target) files idx = [] ∨
      upstream_union_of po pi pv es ev (lowerAscii target) files idx = []) :
    (dfs_lineage_paths po pi pv es ev target files idx [] []).1 = [[lowerAscii target]] ∧
    shape_paths_to_rows (lowerAscii target)
        (dfs_lineage_paths po pi pv es ev target files idx [] []).1 =
      [[("Target Table", lowerAscii target), ("Source Table", lowerAscii target)]] := by
  have h1 : dfs_lineage_paths po pi pv es ev target files idx [] [] =
      ([[lowerAscii target]],
        [(lowerAscii target, upstream_union_of po pi pv es ev (lowerAscii target)
          files idx)]) := by
    rw [dfs_lineage_paths_unfold]
    rw [dfs_step_no_cycle (List.not_mem_nil _)
      (show List.lookup (lowerAscii target) [] = none from rfl)]
    rw [if_pos h, Option.getD_some]
  refine ⟨by rw [h1], ?_⟩
  rw [h1]
  rfl

theorem dfs_lineage_paths_terminal_rule_witness :
    (find_writers_for_table noTables noTables noView (lowerAscii "db.x") [] [] = [] ∨
      upstream_union_of noTables noTables noView noTables noTables
        (lowerAscii "db.x") [] [] = []) ∧
    (dfs_lineage_paths noTables noTables noView noTables noTables
      "db.x" [] [] [] []).1 = [["db.x"]] ∧
    shape_paths_to_rows "db.x" [["db.x"]] =
      [[("Target Table", "db.x"), ("Source Table", "db.x")]] := by
  refine ⟨Or.inl (by decide), ?_, by decide⟩
  rw [(dfs_lineage_paths_terminal_rule noTables noTables noView noTables noTables
    "db.x" [] [] (Or.inl (by decide))).1]
  decide

/-- Claim C7: ambiguous writers contribute the union of their upstream
sets: every table in the resolved upstream union of a target — in
particular each of `{X}` and `{Y}` read by two different writers — heads
at least one returned path right below the target.  The witness
instantiates the two-writer scenario of the spec. -/
theorem dfs_lineage_paths_union_branch
    (po pi : String → List String) (pv : String → Option String)
    (es ev : String → List String) (target up : String) (files : List CodeFile)
    (idx : WritersIndex)
    (hwr : find_writers_for_table po pi pv (lowerAscii target) files idx ≠ [])
    (hup : up ∈ upstream_union_of po pi pv es ev (lowerAscii target) files idx) :
    ∃ tl, (lowerAscii target :: lowerAscii up :: tl) ∈
      (dfs_lineage_paths po pi pv es ev target files idx [] []).1 := by
  have hterm : ¬ (find_writers_for_table po pi pv (lowerAscii target) files idx = [] ∨
      upstream_union_of po pi pv es ev (lowerAscii target) files idx = []) := by
    rintro (h1 | h1)
    · exact hwr h1
    · rw [h1] at hup
      simp at hup
  have hunf := @dfs_lineage_paths_unfold po pi pv es ev target files idx [] []
  rw [dfs_step_no_cycle (List.not_mem_nil _)
    (show List.lookup (lowerAscii target) [] = none from rfl), if_neg hterm] at hunf
  have hrs : (dfs_branch_run
      (fun u c => some (dfs_lineage_paths po pi pv es ev u files idx
        ([] ++ [lowerAscii target]) c))
      (lowerAscii target)
      (sortedSet (upstream_union_of po pi pv es ev (lowerAscii target) files idx))
      [(lowerAscii target,
        upstream_union_of po pi pv es ev (lowerAscii target) files idx)]).isSome :=
    dfs_branch_run_isSome (fun u c => Option.isSome_some) _ _
  rcases Option.isSome_iff_exists.mp hrs with ⟨⟨all, c₂⟩, hrun⟩
  have hsome : ∀ (u : String) (c : UpstreamCache),
      ∃ ps cc, (fun u c => some (dfs_lineage_paths po pi pv es ev u files idx
        ([] ++ [lowerAscii target]) c)) u c = some (ps, cc) ∧ ps ≠ [] ∧
        ∀ sp ∈ ps, ∃ tl, sp = lowerAscii u :: tl := by
    intro u c
    exact ⟨(dfs_lineage_paths po pi pv es ev u files idx ([] ++ [lowerAscii target]) c).1,
      (dfs_lineage_paths po pi pv es ev u files idx ([] ++ [lowerAscii target]) c).2,
      rfl, dfs_lineage_paths_ne_nil u files idx _ c,
      dfs_lineage_paths_head u files idx _ c⟩
  rcases dfs_branch_run_mem_second hsome (mem_sortedSet.mpr hup) hrun with ⟨tl, htl⟩
  refine ⟨tl, ?_⟩
  rw [hunf, hrun, Option.getD_some]
  exact htl

theorem dfs_lineage_paths_union_branch_witness :
    (find_writers_for_table noTables noTables noView (lowerAscii "d.t")
      [⟨"w1", some "one d.t one"⟩, ⟨"w2", some "two d.t two"⟩]
      [("d.t", [⟨"w1", "spark"⟩, ⟨"w2", "spark"⟩])] ≠ [] ∧
     "d.x" ∈ upstream_union_of noTables noTables noView
      (fun t => if t = "one d.t one" then ["d.x"] else
        if t = "two d.t two" then ["d.y"] else []) noTables (lowerAscii "d.t")
      [⟨"w1", some "one d.t one"⟩, ⟨"w2", some "two d.t two"⟩]
      [("d.t", [⟨"w1", "spark"⟩, ⟨"w2", "spark"⟩])] ∧
     "d.y" ∈ upstream_union_of noTables noTables noView
      (fun t => if t = "one d.t one" then ["d.x"] else
        if t = "two d.t two" then ["d.y"] else []) noTables (lowerAscii "d.t")
      [⟨"w1", some "one d.t one"⟩, ⟨"w2", some "two d.t two"⟩]
      [("d.t", [⟨"w1", "spark"⟩, ⟨"w2", "spark"⟩])]) ∧
    (∃ tl, (lowerAscii "d.t" :: lowerAscii "d.x" :: tl) ∈
      (dfs_lineage_paths noTables noTables noView
        (fun t => if t = "one d.t one" then ["d.x"] else
          if t = "two d.t two" then ["d.y"] else []) noTables "d.t"
        [⟨"w1", some "one d.t one"⟩, ⟨"w2", some "two d.t two"⟩]
        [("d.t", [⟨"w1", "spark"⟩, ⟨"w2", "spark"⟩])] [] []).1) ∧
    (∃ tl, (lowerAscii "d.t" :: lowerAscii "d.y" :: tl) ∈
      (dfs_lineage_paths noTables noTables noView
        (fun t => if t = "one d.t one" then ["d.x"] else
          if t = "two d.t two" then ["d.y"] else []) noTables "d.t"
        [⟨"w1", some "one d.t one"⟩, ⟨"w2", some "two d.t two"⟩]
        [("d.t", [⟨"w1", "spark"⟩, ⟨"w2", "spark"⟩])] [] []).1) := by
  refine ⟨⟨by decide, by decide, by decide⟩, ?_, ?_⟩
  · exact dfs_lineage_paths_union_branch noTables noTables noView _ noTables
      "d.t" "d.x" _ _ (by decide) (by decide)
  · exact dfs_lineage_paths_union_branch noTables noTables noView _ noTables
      "d.t" "d.y" _ _ (by decide) (by decide)

/-- Claim C6: resolution is deterministic: on a fixed corpus and index,
two runs of the enumerator whose only difference is the enumeration
order of the extracted upstream sets (the freedom Python set iteration
has) return identical path lists, because every branch point orders the
upstream union by the fixed lexicographic sort `sortedSet`, which is
sorted and invariant under permutation of the set enumeration. -/
theorem dfs_lineage_paths_deterministic
    (po pi : String → List String) (pv : String → Option String)
    (es₁ ev₁ es₂ ev₂ : String → List String)
    (hES : ∀ t, (es₁ t).Perm (es₂ t)) (hEV : ∀ t, (ev₁ t).Perm (ev₂ t))
    (s : String) (files : List CodeFile) (idx : WritersIndex)
    (visited : List String) :
    (dfs_lineage_paths po pi pv es₁ ev₁ s files idx visited []).1 =
      (dfs_lineage_paths po pi pv es₂ ev₂ s files idx visited []).1 ∧
    (∀ l l₂ : List String,
      (sortedSet l).Pairwise (fun a b => strLe a b = true) ∧
      (List.Perm l l₂ → sortedSet l = sortedSet l₂)) := by
  constructor
  · have hrel := @dfs_fuel_rel po pi pv es₁ ev₁ es₂ ev₂ hES hEV
      (dfs_fuel_bound po pi pv files idx visited) s files idx visited [] []
      (show cacheRel [] [] from List.Forall₂.nil)
    have h1 := @dfs_lineage_paths_spec po pi pv es₁ ev₁ s files idx visited []
    have h2 := @dfs_lineage_paths_spec po pi pv es₂ ev₂ s files idx visited []
    rcases hrel with ⟨hn, _⟩ | ⟨p, d₁, d₂, hs₁, hs₂, _⟩
    · rw [h1] at hn
      simp at hn
    · rw [h1] at hs₁
      rw [h2] at hs₂
      have e₁ := Option.some_injective _ hs₁
      have e₂ := Option.some_injective _ hs₂
      rw [e₁, e₂]
  · exact fun l l₂ => ⟨sorted_sortedSet l, fun h => sortedSet_eq_of_perm h⟩

theorem dfs_lineage_paths_deterministic_witness :
    (∀ t, ((fun t => if t = cycTextA then ["d.m", "d.n"] else []) t).Perm
      ((fun t => if t = cycTextA then ["d.n", "d.m"] else []) t)) ∧
    (dfs_lineage_paths noTables noTables noView
      (fun t => if t = cycTextA then ["d.m", "d.n"] else []) noTables
      "db.a" [⟨"fa", some cycTextA⟩] [("db.a", [⟨"fa", "spark"⟩])] [] []).1 =
    (dfs_lineage_paths noTables noTables noView
      (fun t => if t = cycTextA then ["d.n", "d.m"] else []) noTables
      "db.a" [⟨"fa", some cycTextA⟩] [("db.a", [⟨"fa", "spark"⟩])] [] []).1 := by
  have hES : ∀ t, ((fun t => if t = cycTextA then ["d.m", "d.n"] else []) t).Perm
      ((fun t => if t = cycTextA then ["d.n", "d.m"] else []) t) := by
    intro t
    by_cases h : t = cycTextA
    · simp only [if_pos h]
      decide
    · simp only [if_neg h]
      exact List.Perm.refl _
  refine ⟨hES, ?_⟩
  exact (dfs_lineage_paths_deterministic noTables noTables noView _ _ _ _ hES
    (fun t => List.Perm.refl _) "db.a" [⟨"fa", some cycTextA⟩]
    [("db.a", [⟨"fa", "spark"⟩])] []).1

set_option maxHeartbeats 2000000 in
/-- Claim C1 (code divergence): `dfs_lineage_paths` has no path or depth
ceiling and no truncation reporting — neither a bound parameter nor a
truncation flag exists — and on the two-level diamond corpus it returns
the complete list of `2 ^ 2 = 4` full-depth paths; every further level
of such a chain doubles the count, unbounded.  The early termination
with a reported truncation that the claim describes does not exist in
the code. -/
theorem dfs_lineage_paths_no_ceiling :
    (dfs_lineage_paths noTables noTables noView dmdExtract noTables
      "d.t0" dmdFiles dmdIndex [] []).1 =
      [["d.t0", "d.a0", "d.t1", "d.a1", "d.t2"],
       ["d.t0", "d.a0", "d.t1", "d.b1", "d.t2"],
       ["d.t0", "d.b0", "d.t1", "d.a1", "d.t2"],
       ["d.t0", "d.b0", "d.t1", "d.b1", "d.t2"]] := by decide

/-- Claim C5: for a path `p` of length at least two the shaper emits
exactly one row: position 0 is the target field holding the
caller-supplied canonical target, positions `1 .. len p - 2` are
exactly the fields `Layer i` holding `p[i]`, the last position is the
source field holding the final element, and the row has no other field;
in general one row is emitted per path, and every path a fresh
enumerator run hands the shaper starts with the canonical target, which
is why the caller-supplied target agrees with `p[0]`. -/
theorem shape_paths_to_rows_row_spec
    (target : String) (p : List String) (h : 2 ≤ p.length) :
    ((shape_paths_to_rows target [p]).length = 1 ∧
      ∀ r ∈ shape_paths_to_rows target [p],
        r.length = p.length ∧
        r[0]? = some ("Target Table", target) ∧
        (∀ i, 1 ≤ i → i + 2 ≤ p.length →
          ∃ x, p[i]? = some x ∧ r[i]? = some ("Layer " ++ toString i, x)) ∧
        r[p.length - 1]? = some ("Source Table", p.getLastD "")) ∧
    (∀ ps : List (List String), (shape_paths_to_rows target ps).length = ps.length) ∧
    (∀ (po pi : String → List String) (pv : String → Option String)
      (es ev : String → List String) (files : List CodeFile) (idx : WritersIndex),
      ∀ q ∈ (dfs_lineage_paths po pi pv es ev target files idx [] []).1,
        q[0]? = some (lowerAscii target)) := by
  refine ⟨?_, fun ps => List.length_map _ _, ?_⟩
  · rcases p with _ | ⟨x, _ | ⟨y, rest⟩⟩
    · simp at h
    · simp at h
    · have hshape : shape_paths_to_rows target [x :: y :: rest] =
          [("Target Table", target) ::
            ((((x :: y :: rest).drop 1).dropLast.enumFrom 1).map
              (fun iv => ("Layer " ++ toString iv.1, iv.2)) ++
              [("Source Table", (x :: y :: rest).getLastD "")])] := rfl
      rw [hshape]
      refine ⟨rfl, ?_⟩
      intro r hr
      rcases List.mem_singleton.mp hr with rfl
      have hlen : ((x :: y :: rest).drop 1).dropLast.length =
          (x :: y :: rest).length - 2 := by
        simp [List.length_dropLast]
      constructor
      · simp only [List.length_cons, List.length_append, List.length_map,
          List.enumFrom_length, hlen]
        simp
      refine ⟨by simp, ?_, ?_⟩
      · intro i h1 h2
        obtain ⟨j, rfl⟩ : ∃ j, i = j + 1 := ⟨i - 1, by omega⟩
        have hjlt : j < ((x :: y :: rest).drop 1).dropLast.length := by
          rw [hlen]
          simp only [List.length_cons] at h2 ⊢
          omega
        have hilt : j + 1 < (x :: y :: rest).length := by omega
        rcases hgx : (x :: y :: rest)[j + 1]? with _ | z
        · rw [List.getElem?_eq_none_iff] at hgx
          omega
        · refine ⟨z, rfl, ?_⟩
          rw [List.getElem?_cons_succ, List.getElem?_append]
          rw [if_pos (show j < (((((x :: y :: rest).drop 1).dropLast.enumFrom 1).map
            (fun iv => ("Layer " ++ toString iv.1, iv.2)))).length by
              rw [List.length_map, List.enumFrom_length]; exact hjlt)]
          rw [List.getElem?_map, List.getElem?_enumFrom]
          have hinter : (((x :: y :: rest).drop 1).dropLast)[j]? = some z := by
            rw [List.dropLast_eq_take, List.getElem?_take]
            rw [if_pos (by simpa using hjlt)]
            rw [List.getElem?_drop, Nat.add_comm 1 j]
            simpa using hgx
          rw [hinter]
          have hadd : 1 + j = j + 1 := by omega
          rw [hadd]
          simp
      · have hidx : (x :: y :: rest).length - 1 =
            ((((x :: y :: rest).drop 1).dropLast.enumFrom 1).map
              (fun iv => ("Layer " ++ toString iv.1, iv.2))).length + 1 := by
          rw [List.length_map, List.enumFrom_length, hlen]
          simp
        rw [hidx]
        rw [List.getElem?_cons_succ, List.getElem?_append_right (Nat.le_refl _)]
        simp
  · intro po pi pv es ev files idx q hq
    rcases dfs_lineage_paths_head target files idx [] [] q hq with ⟨tl, rfl⟩
    simp

theorem shape_paths_to_rows_row_spec_witness :
    2 ≤ (["db.t", "db.m", "db.s"] : List String).length ∧
    (shape_paths_to_rows "db.t" [["db.t", "db.m", "db.s"]]).length = 1 ∧
    ∀ r ∈ shape_paths_to_rows "db.t" [["db.t", "db.m", "db.s"]],
      r[1]? = some ("Layer " ++ toString 1, "db.m") ∧
      r[2]? = some ("Source Table", "db.s") := by
  refine ⟨by decide, ((shape_paths_to_rows_row_spec "db.t" ["db.t", "db.m", "db.s"]
    (by decide)).1).1, ?_⟩
  intro r hr
  have hmain := ((shape_paths_to_rows_row_spec "db.t" ["db.t", "db.m", "db.s"]
    (by decide)).1).2 r hr
  rcases hmain with ⟨_, _, hlayer, hsrc⟩
  rcases hlayer 1 (by omega) (by decide) with ⟨z, hz, hrz⟩
  constructor
  · have : z = "db.m" := by
      have : (["db.t", "db.m", "db.s"] : List String)[1]? = some "db.m" := by decide
      rw [this] at hz
      exact (Option.some_injective _ hz).symm
    rw [hrz, this]
  · simpa using hsrc

/-- Claim C8: writer lookup filters the indexed writers of the
lower-cased FQTN down to the candidate files whose raw lower-cased text
still contains the name with word boundaries (the
`filter_candidate_files_by_name` word-boundary search); exactly when
that filtered set is empty — because the filter removed every indexed
entry or the table is absent from the index — it falls back to a direct
re-parse of the candidate files with the same per-kind extraction rules
(`direct_parse_writers` over the same extractor functions), so an index
miss cannot hide a writer whose candidate file still parses to the
table. -/
theorem find_writers_for_table_contract
    (po pi : String → List String) (pv : String → Option String)
    (fqtn : String) (files : List CodeFile) (idx : WritersIndex) :
    (find_writers_for_table po pi pv fqtn files idx =
      dedup_writers
        (if ((idx.lookup (lowerAscii fqtn)).getD []).filter
            (fun w => (filter_candidate_files_by_name files
              (lowerAscii fqtn)).contains w.file_path) = [] then
          direct_parse_writers po pi pv (lowerAscii fqtn) files
            (filter_candidate_files_by_name files (lowerAscii fqtn))
        else
          ((idx.lookup (lowerAscii fqtn)).getD []).filter
            (fun w => (filter_candidate_files_by_name files
              (lowerAscii fqtn)).contains w.file_path))) ∧
    (∀ p t, ((idx.lookup (lowerAscii fqtn)).getD []).filter
          (fun w => (filter_candidate_files_by_name files
            (lowerAscii fqtn)).contains w.file_path) = [] →
      p ∈ filter_candidate_files_by_name files (lowerAscii fqtn) →
      read_text files p = some t →
      lowerAscii fqtn ∈ po t ++ pi t →
      (⟨p, "spark"⟩ : WriterInfo) ∈ find_writers_for_table po pi pv fqtn files idx) := by
  refine ⟨find_writers_for_table_eq po pi pv fqtn files idx, ?_⟩
  intro p t hflt hp hrt hparse
  rw [find_writers_for_table_eq po pi pv fqtn files idx, if_pos hflt]
  apply mem_dedup_writers
  rw [direct_parse_writers]
  apply List.mem_filterMap.mpr
  refine ⟨p, hp, ?_⟩
  rw [hrt]
  simp [hparse]

theorem find_writers_for_table_contract_witness :
    (([] : WritersIndex).lookup (lowerAscii "db.z") = none ∧
     "f" ∈ filter_candidate_files_by_name [⟨"f", some "# db.z #"⟩] (lowerAscii "db.z") ∧
     read_text [⟨"f", some "# db.z #"⟩] "f" = some "# db.z #" ∧
     lowerAscii "db.z" ∈ (fun t => if t = "# db.z #" then ["db.z"] else []) "# db.z #" ++
       noTables "# db.z #") ∧
    (⟨"f", "spark"⟩ : WriterInfo) ∈ find_writers_for_table
      (fun t => if t = "# db.z #" then ["db.z"] else []) noTables noView
      "db.z" [⟨"f", some "# db.z #"⟩] [] := by
  refine ⟨⟨by decide, by decide, by decide, by decide⟩, ?_⟩
  exact (find_writers_for_table_contract
    (fun t => if t = "# db.z #" then ["db.z"] else []) noTables noView
    "db.z" [⟨"f", some "# db.z #"⟩] []).2 "f" "# db.z #"
    (by decide) (by decide) (by decide) (by decide)

/-- Claim C9 counterexample: with an empty corpus — the file list of an
empty or nonexistent root — and the fully-qualified target `db.t`, the
run does not abort: `tracer` succeeds and writes a target/source row,
so an empty corpus root is not a fatal condition in the code. -/
theorem tracer_empty_corpus_cx :
    tracer noTables noTables noView noTables noTables [] ["db.t"] =
      Except.ok [["Target Table", "Source Table"], ["db.t", "db.t"]] := by rfl

/-- Claim C9 (amended): the run aborts — with exit status 2 — exactly
when the resolved target list is empty; an empty or nonexistent corpus
root is not by itself fatal, since with resolvable (for instance
fully-qualified) targets the driver proceeds and emits output, and the
driver has no other abort path: every other condition leaves the run
producing output. -/
theorem tracer_fatal_exactly_empty_targets
    (po pi : String → List String) (pv : String → Option String)
    (es ev : String → List String) (files : List CodeFile)
    (targets_arg : List String) :
    tracer po pi pv es ev files targets_arg =
      (if resolved_fqtn_targets po pi pv files targets_arg = [] then
        Except.error 2
      else
        Except.ok (write_csv
          ((resolved_fqtn_targets po pi pv files targets_arg).flatMap
            (fun tgt => shape_paths_to_rows tgt
              (dfs_lineage_paths po pi pv es ev tgt files
                (index_writers po pi pv files) [] []).1)))) ∧
    (tracer po pi pv es ev files targets_arg = Except.error 2 ↔
      resolved_fqtn_targets po pi pv files targets_arg = []) := by
  refine ⟨rfl, ?_⟩
  by_cases hres : resolved_fqtn_targets po pi pv files targets_arg = []
  · rw [show tracer po pi pv es ev files targets_arg =
        (if resolved_fqtn_targets po pi pv files targets_arg = [] then
          Except.error 2 else Except.ok (write_csv
          ((resolved_fqtn_targets po pi pv files targets_arg).flatMap
            (fun tgt => shape_paths_to_rows tgt
              (dfs_lineage_paths po pi pv es ev tgt files
                (index_writers po pi pv files) [] []).1)))) from rfl, if_pos hres]
    simp [hres]
  · rw [show tracer po pi pv es ev files targets_arg =
        (if resolved_fqtn_targets po pi pv files targets_arg = [] then
          Except.error 2 else Except.ok (write_csv
          ((resolved_fqtn_targets po pi pv files targets_arg).flatMap
            (fun tgt => shape_paths_to_rows tgt
              (dfs_lineage_paths po pi pv es ev tgt files
                (index_writers po pi pv files) [] []).1)))) from rfl, if_neg hres]
    simp [hres]

/-- Claim C10: called with an empty row list, the CSV writer still
emits a valid table consisting of exactly the single header row with
the two columns for target and source and no layer column, rather than
failing or writing nothing. -/
theorem write_csv_empty_rows : write_csv [] = [["Target Table", "Source Table"]] := rfl
